import Mathlib

/-! # embedded-configs: length-prefixed config records (`Config.hpp`)

A shallow embedding of the field codecs (`PODField`, `ArrayField`, `StringField`) and of the
record aggregate `Config` of `Config.hpp`, followed by theorems about them.

Modelling conventions

* `uint8_t` is `Byte = Fin 256`.  A `uint8_t*` is a pair of a memory `Mem = Nat → Byte` and an
  offset into it, so that pointer arithmetic is arithmetic on offsets.
* `ConfigFieldSizeStorageType` is `uint16_t`: values of that type are naturals reduced
  `% 65536`.  `size_t` is 64 bits wide: the only `size_t` computation that can wrap is
  `diskSize - sizeof(ConfigFieldSizeStorageType)`, reduced `% 2^64`.
* The host is little-endian (`memcpy` of a `size_t` into two bytes stores its low 16 bits).
* A field's `value` storage is the list of its bytes; the C++ type fixes its length
  (`sizeof(value)`), which is the predicate `ConfigField.WellFormed`.
* The `Types...` pack of `Config` is a list of fields of the three codec kinds (flat schemas, as
  in `Config.cpp`).  The fold expression in `Config::serialized_size` needs a non-empty pack.
* `assert(false)` is compiled out (`NDEBUG`); the ghost flag `DeserializeState.assert_failed`
  records that control passed through one.
-/

namespace EmbeddedConfigs

/-- The type `uint8_t`. -/
abbrev Byte := Fin 256

/-- Memory addressed through a `uint8_t*`: `mem i` is the byte at offset `i`. -/
abbrev Mem := Nat → Byte

/-- The constant `sizeof(ConfigFieldSizeStorageType)`, with `ConfigFieldSizeStorageType = uint16_t`. -/
def sizeof_size : Nat := 2

/-- Number of values of `ConfigFieldSizeStorageType` (`uint16_t`). -/
def SIZE_STORAGE_MOD : Nat := 65536

/-- Number of values of `size_t`. -/
def SIZE_T_MOD : Nat := 2 ^ 64

/-- The bytes `mem[off], ..., mem[off + n - 1]`. -/
def peek (mem : Mem) : Nat → Nat → List Byte
  | _, 0 => []
  | off, n + 1 => mem off :: peek mem (off + 1) n

/-- The call `memcpy(buf + off, src, sizeof src)` : the memory after storing the bytes `src` at `off`. -/
def poke (mem : Mem) (off : Nat) (src : List Byte) : Mem :=
  fun i => if off ≤ i then (src[i - off]?).getD (mem i) else mem i

/-- The call `memcpy(value, buf + off, n)`: the first `n` bytes of `value` are replaced. -/
def memcpy_from (value : List Byte) (mem : Mem) (off n : Nat) : List Byte :=
  peek mem off n ++ value.drop n

/-- The two low bytes of a `size_t`, in memory order on a little-endian host. -/
def size_bytes (s : Nat) : List Byte :=
  [⟨s % 256, Nat.mod_lt _ (by decide)⟩, ⟨s / 256 % 256, Nat.mod_lt _ (by decide)⟩]

/-- The call `memcpy(buf + off, &serialized_size, sizeof(ConfigFieldSizeStorageType))`. -/
def write_size (mem : Mem) (off : Nat) (s : Nat) : Mem :=
  poke mem off (size_bytes s)

/-- The call `memcpy(&diskSize, buf + off, sizeof(ConfigFieldSizeStorageType))`. -/
def read_size (mem : Mem) (off : Nat) : Nat :=
  (mem off).val + 256 * (mem (off + 1)).val

/-- The `size_t` subtraction `diskSize - sizeof(ConfigFieldSizeStorageType)`, which wraps around
when `diskSize` is below `sizeof(ConfigFieldSizeStorageType)`. -/
def size_t_sub (diskSize : Nat) : Nat :=
  (diskSize + SIZE_T_MOD - sizeof_size) % SIZE_T_MOD

/-- The computation `size_t copySize = diskSize - sizeof(ConfigFieldSizeStorageType);
if (copySize > sizeof(value)) copySize = sizeof(value);` shared by the three codecs. -/
def copy_size (diskSize sizeof_value : Nat) : Nat :=
  let copySize := size_t_sub diskSize
  if copySize > sizeof_value then sizeof_value else copySize

/-! ## Field codecs -/

namespace PODField

/-- The constant `PODField<T>::serialized_size`. -/
def serialized_size (sizeof_T : Nat) : Nat := sizeof_size + sizeof_T

/-- The method `PODField<T>::serialize`. -/
def serialize (sizeof_T : Nat) (value : List Byte) (mem : Mem) (buf : Nat) : Mem :=
  let mem := write_size mem buf (serialized_size sizeof_T)
  let buf := buf + sizeof_size
  poke mem buf value

/-- The method `PODField<T>::deserialize`: the new value and the returned `diskSize`. -/
def deserialize (sizeof_T : Nat) (value : List Byte) (mem : Mem) (buf : Nat) (_size : Nat) :
    List Byte × Nat :=
  let diskSize := read_size mem buf
  let buf := buf + sizeof_size
  let copySize := copy_size diskSize sizeof_T
  (memcpy_from value mem buf copySize, diskSize)

end PODField

namespace ArrayField

/-- The constant `ArrayField<T, T_ARR_LEN>::serialized_size`. -/
def serialized_size (sizeof_T T_ARR_LEN : Nat) : Nat := sizeof_size + sizeof_T * T_ARR_LEN

/-- The method `ArrayField<T, T_ARR_LEN>::serialize`. -/
def serialize (sizeof_T T_ARR_LEN : Nat) (value : List Byte) (mem : Mem) (buf : Nat) : Mem :=
  let mem := write_size mem buf (serialized_size sizeof_T T_ARR_LEN)
  let buf := buf + sizeof_size
  poke mem buf value

/-- The method `ArrayField<T, T_ARR_LEN>::deserialize`. -/
def deserialize (sizeof_T T_ARR_LEN : Nat) (value : List Byte) (mem : Mem) (buf : Nat)
    (_size : Nat) : List Byte × Nat :=
  let diskSize := read_size mem buf
  let buf := buf + sizeof_size
  let copySize := copy_size diskSize (sizeof_T * T_ARR_LEN)
  (memcpy_from value mem buf copySize, diskSize)

end ArrayField

/-- The call `strncpy(dst, str, n)`: the characters of `str` before its first NUL, at most `n`
of them, padded with NUL bytes up to `n` bytes. -/
def strncpy (dst : List Byte) (str : List Byte) (n : Nat) : List Byte :=
  let s := (str.takeWhile (fun c => c ≠ 0)).take n
  s ++ List.replicate (n - s.length) 0 ++ dst.drop n

/-- The C string stored in a `char` array: the bytes before the first NUL. -/
def c_str (value : List Byte) : List Byte := value.takeWhile (fun c => c ≠ 0)

namespace StringField

/-- The constant `StringField<T_SIZE>::serialized_size`. -/
def serialized_size (T_SIZE : Nat) : Nat := sizeof_size + T_SIZE + 1

/-- The method `StringField<T_SIZE>::set_value`. -/
def set_value (T_SIZE : Nat) (value : List Byte) (str : List Byte) : List Byte :=
  (strncpy value str T_SIZE).set T_SIZE 0

/-- The method `StringField<T_SIZE>::serialize`. -/
def serialize (T_SIZE : Nat) (value : List Byte) (mem : Mem) (buf : Nat) : Mem :=
  let mem := write_size mem buf (serialized_size T_SIZE)
  let buf := buf + sizeof_size
  poke mem buf value

/-- The method `StringField<T_SIZE>::deserialize`. -/
def deserialize (T_SIZE : Nat) (value : List Byte) (mem : Mem) (buf : Nat) (_size : Nat) :
    List Byte × Nat :=
  let diskSize := read_size mem buf
  let buf := buf + sizeof_size
  let copySize := copy_size diskSize (T_SIZE + 1)
  let value := memcpy_from value mem buf copySize
  (value.set T_SIZE 0, diskSize)

end StringField

/-- The three codec templates with their template arguments (`sizeof(T)` stands for `T`). -/
inductive FieldType
  | PODField (sizeof_T : Nat)
  | ArrayField (sizeof_T T_ARR_LEN : Nat)
  | StringField (T_SIZE : Nat)
  deriving DecidableEq, Repr

/-- The size `sizeof(value)` of a field of the given type. -/
def FieldType.sizeof_value : FieldType → Nat
  | .PODField sizeof_T => sizeof_T
  | .ArrayField sizeof_T T_ARR_LEN => sizeof_T * T_ARR_LEN
  | .StringField T_SIZE => T_SIZE + 1

/-- The constant `T::serialized_size` of a field type. -/
def FieldType.serialized_size : FieldType → Nat
  | .PODField sizeof_T => PODField.serialized_size sizeof_T
  | .ArrayField sizeof_T T_ARR_LEN => ArrayField.serialized_size sizeof_T T_ARR_LEN
  | .StringField T_SIZE => StringField.serialized_size T_SIZE

/-- A `ConfigField` object of one of the three codec types: its flag and its value storage. -/
structure ConfigField where
  type : FieldType
  has_value : Bool
  value : List Byte
  deriving DecidableEq, Repr

/-- The storage of a field has the length fixed by its C++ type. -/
def ConfigField.WellFormed (f : ConfigField) : Prop :=
  f.value.length = f.type.sizeof_value

instance (f : ConfigField) : Decidable f.WellFormed := by
  unfold ConfigField.WellFormed; infer_instance

/-- The virtual call `field.serialize(buf)`. -/
def ConfigField.serialize (f : ConfigField) (mem : Mem) (buf : Nat) : Mem :=
  match f.type with
  | .PODField sizeof_T => PODField.serialize sizeof_T f.value mem buf
  | .ArrayField sizeof_T T_ARR_LEN => ArrayField.serialize sizeof_T T_ARR_LEN f.value mem buf
  | .StringField T_SIZE => StringField.serialize T_SIZE f.value mem buf

/-- The virtual call `field.deserialize(buf, size)`: the field afterwards and the returned value
(`has_value` is not touched by the codecs). -/
def ConfigField.deserialize (f : ConfigField) (mem : Mem) (buf : Nat) (size : Nat) :
    ConfigField × Nat :=
  match f.type with
  | .PODField sizeof_T =>
      let r := PODField.deserialize sizeof_T f.value mem buf size
      ({ f with value := r.1 }, r.2)
  | .ArrayField sizeof_T T_ARR_LEN =>
      let r := ArrayField.deserialize sizeof_T T_ARR_LEN f.value mem buf size
      ({ f with value := r.1 }, r.2)
  | .StringField T_SIZE =>
      let r := StringField.deserialize T_SIZE f.value mem buf size
      ({ f with value := r.1 }, r.2)

/-! ## The record aggregate `Config` -/

/-- A `Config<EnumClass, Types...>` object: its own flag and the tuple `_fields`. -/
structure Config where
  has_value : Bool
  _fields : List ConfigField
  deriving DecidableEq, Repr

/-- The fold `(Types::serialized_size + ...)`. -/
def fields_serialized_size : List ConfigField → Nat
  | [] => 0
  | f :: fs => f.type.serialized_size + fields_serialized_size fs

/-- The constant `Config::serialized_size`. -/
def Config.serialized_size (c : Config) : Nat :=
  sizeof_size + fields_serialized_size c._fields

/-- The method `Config::get_serialized_size`. -/
def Config.get_serialized_size (c : Config) : Nat := c.serialized_size

/-- The method `Config::read_root_config_size`. -/
def Config.read_root_config_size (_c : Config) (mem : Mem) (data : Nat) : Nat :=
  read_size mem data

/-- The write cursor `uint8_t** buffer` together with the memory it points into. -/
structure SerializeState where
  mem : Mem
  buffer : Nat

/-- The template `Config::serialize_field(const T& field, uint8_t** buffer)`. -/
def Config.serialize_field (field : ConfigField) (st : SerializeState) : SerializeState :=
  { mem := field.serialize st.mem st.buffer
    buffer := st.buffer + field.type.serialized_size }

/-- The template `Config::serialize_field<N>(uint8_t** buf)`. -/
def Config.serialize_field_N (c : Config) (N : Nat) (st : SerializeState) : SerializeState :=
  match c._fields[N]? with
  | some field => Config.serialize_field field st
  | none => st

/-- The template `Config::serialize_each_field_helper`: with `n` types left in the pack it first
recurses on the `n - 1` remaining ones and then serializes field `sizeof...(Args) = n - 1`. -/
def Config.serialize_each_field_helper (c : Config) : Nat → SerializeState → SerializeState
  | 0, st => st
  | n + 1, st => Config.serialize_field_N c n (Config.serialize_each_field_helper c n st)

/-- The method `Config::serialize`. -/
def Config.serialize (c : Config) (mem : Mem) (buf : Nat) : Mem :=
  let mem := write_size mem buf c.serialized_size
  let buf := buf + sizeof_size
  (Config.serialize_each_field_helper c c._fields.length { mem := mem, buffer := buf }).mem

/-- The read cursor `const uint8_t** buffer`, the budget `ConfigFieldSizeStorageType& size`, and
the ghost flag telling whether an `assert(false)` was passed. -/
structure DeserializeState where
  buffer : Nat
  size : Nat
  assert_failed : Bool
  deriving DecidableEq, Repr

/-- The template `Config::deserialize_field(T& field, const uint8_t** buffer,
ConfigFieldSizeStorageType& size)`. -/
def Config.deserialize_field (field : ConfigField) (mem : Mem) (st : DeserializeState) :
    ConfigField × DeserializeState :=
  if st.size < sizeof_size then
    (field, { st with size := 0, assert_failed := true })
  else
    let r := field.deserialize mem st.buffer st.size
    let consumedSize := r.2
    if consumedSize > st.size then
      (r.1, { st with size := 0, assert_failed := true })
    else
      (r.1, { st with size := st.size - consumedSize, buffer := st.buffer + consumedSize })

/-- The template `Config::deserialize_field<N>(const uint8_t** buf,
ConfigFieldSizeStorageType& size)`, on the field `std::get<N>(_fields)`. -/
def Config.deserialize_field_N (fields : List ConfigField) (N : Nat) (mem : Mem)
    (st : DeserializeState) : List ConfigField × DeserializeState :=
  match fields[N]? with
  | some field =>
      if st.size ≠ 0 then
        let r := Config.deserialize_field field mem st
        (fields.set N { r.1 with has_value := true }, r.2)
      else
        (fields.set N { field with has_value := false }, st)
  | none => (fields, st)

/-- The template `Config::deserialize_each_field_helper`: with `n` types left in the pack it
first recurses on the `n - 1` remaining ones and then deserializes field
`sizeof...(Args) = n - 1`. -/
def Config.deserialize_each_field_helper (mem : Mem) :
    Nat → List ConfigField × DeserializeState → List ConfigField × DeserializeState
  | 0, s => s
  | n + 1, s =>
      let s1 := Config.deserialize_each_field_helper mem n s
      Config.deserialize_field_N s1.1 n mem s1.2

/-- The field loop of `Config::deserialize`, entered with `mutableDiskSize` as the budget: the
fields and the cursor, budget and ghost flag when the loop is left. -/
def Config.deserialize_loop (c : Config) (mem : Mem) (buf : Nat) (mutableDiskSize : Nat) :
    List ConfigField × DeserializeState :=
  Config.deserialize_each_field_helper mem c._fields.length
    (c._fields, { buffer := buf, size := mutableDiskSize, assert_failed := false })

/-- The method `Config::deserialize`: the record afterwards and the returned value. -/
def Config.deserialize (c : Config) (mem : Mem) (buf : Nat) (size : Nat) : Config × Nat :=
  if size < sizeof_size then
    ({ c with has_value := false }, size % SIZE_STORAGE_MOD)
  else
    let diskSize := read_size mem buf
    let buf := buf + sizeof_size
    let mutableDiskSize := size_t_sub diskSize % SIZE_STORAGE_MOD
    if mutableDiskSize ≠ 0 then
      let r := Config.deserialize_loop c mem buf mutableDiskSize
      ({ has_value := true, _fields := r.1 }, diskSize)
    else
      ({ c with has_value := false }, diskSize)

/-- The state of the field loop of `Config::deserialize` (cursor, budget, ghost flag) after the
first `n` calls `deserialize_field<0>`, ..., `deserialize_field<n-1>`, when the loop is entered
at cursor `buf` with `mutableDiskSize` as the budget. -/
def Config.loop_state (c : Config) (mem : Mem) (buf : Nat) (mutableDiskSize : Nat) (n : Nat) :
    DeserializeState :=
  (Config.deserialize_each_field_helper mem n
    (c._fields, { buffer := buf, size := mutableDiskSize, assert_failed := false })).2

/-- Every field of the record has storage of the length fixed by its type. -/
def Config.WellFormed (c : Config) : Prop := ∀ f ∈ c._fields, f.WellFormed

instance (c : Config) : Decidable c.WellFormed := by
  unfold Config.WellFormed; infer_instance

/-- The schema of a record: its `Types...` pack. -/
def Config.schema (c : Config) : List FieldType := c._fields.map ConfigField.type

/-- Memory holding only zero bytes (the `memset(writeBuffer, 0, ...)` of `test`). -/
def zero_mem : Mem := fun _ => 0

/-- The memory holding the given bytes from offset 0 on, and zero bytes after them. -/
def mem_of (bytes : List Byte) : Mem := poke zero_mem 0 bytes

/-! ## Specification-level descriptions used in the theorems -/

/-- The body of `deserialize_field<N>` on one field: the field and the loop state afterwards. -/
def deserialize_step (field : ConfigField) (mem : Mem) (st : DeserializeState) :
    ConfigField × DeserializeState :=
  if st.size ≠ 0 then
    let r := Config.deserialize_field field mem st
    ({ r.1 with has_value := true }, r.2)
  else
    ({ field with has_value := false }, st)

/-- The calls `deserialize_field<0>`, `deserialize_field<1>`, ... in turn, as a traversal of the
field list (`deserialize_each_field_helper_eq` relates it to the template recursion). -/
def deserialize_fields (mem : Mem) :
    List ConfigField → DeserializeState → List ConfigField × DeserializeState
  | [], st => ([], st)
  | f :: fs, st =>
      let r := deserialize_step f mem st
      let rs := deserialize_fields mem fs r.2
      (r.1 :: rs.1, rs.2)

/-- The calls `serialize_field<0>`, `serialize_field<1>`, ... in turn, as a traversal of the
field list (`serialize_each_field_helper_eq` relates it to the template recursion). -/
def serialize_fields : List ConfigField → SerializeState → SerializeState
  | [], st => st
  | f :: fs, st => serialize_fields fs (Config.serialize_field f st)

/-- What a codec of type `t` does after its `memcpy`: a text field forces its terminator. -/
def FieldType.terminate : FieldType → List Byte → List Byte
  | .StringField T_SIZE, value => value.set T_SIZE 0
  | _, value => value

/-- The value of a field of type `t` and old storage `old` after it has decoded a block whose
payload is `payload`: the front `min` bytes are taken from the payload. -/
def stored (t : FieldType) (payload old : List Byte) : List Byte :=
  t.terminate (payload.take (min payload.length t.sizeof_value)
    ++ old.drop (min payload.length t.sizeof_value))

/-- The field `d` after it has decoded the block of the field `s`: it is present, the first
`min(sizeof(s.value), sizeof(d.value))` bytes of its value are the first bytes of `s.value`, the
bytes after them are as before, and a text field has its last byte set to 0. -/
def decode_into (s d : ConfigField) : ConfigField :=
  { type := d.type
    has_value := true
    value := d.type.terminate
      (s.value.take (min s.type.sizeof_value d.type.sizeof_value)
        ++ d.value.drop (min s.type.sizeof_value d.type.sizeof_value)) }

/-- The expected result of decoding the blocks of the fields `src` into the fields `dst`:
position by position while both last, then every remaining `dst` field is marked absent. -/
def decoded : List ConfigField → List ConfigField → List ConfigField
  | _, [] => []
  | [], d :: ds => { d with has_value := false } :: decoded [] ds
  | s :: ss, d :: ds =>
      { d with has_value := true, value := stored d.type s.value d.value } :: decoded ss ds

/-- The memory holds, from offset `c` on, one block per field of `src`: the two-byte length
`serialized_size % 65536` followed by the bytes of `value`. -/
def Encoded (mem : Mem) : Nat → List ConfigField → Prop
  | _, [] => True
  | c, f :: fs =>
      read_size mem c = f.type.serialized_size % 65536
        ∧ peek mem (c + 2) f.value.length = f.value
        ∧ Encoded mem (c + f.type.serialized_size) fs

/-- A text field is null-terminated in its last byte `value[T_SIZE]`; nothing is asked of the
other kinds. -/
def ConfigField.Terminated (f : ConfigField) : Prop :=
  match f.type with
  | .StringField T_SIZE => f.value[T_SIZE]? = some 0
  | _ => True

instance (f : ConfigField) : Decidable f.Terminated := by
  unfold ConfigField.Terminated; split <;> infer_instance

/-- The field with its presence flag set. -/
def ConfigField.present (f : ConfigField) : ConfigField := { f with has_value := true }

/-- The field with its presence flag cleared. -/
def ConfigField.absent (f : ConfigField) : ConfigField := { f with has_value := false }

/-- A field of the given type with zero-filled storage and `has_value = false`. -/
def FieldType.zero_field (t : FieldType) : ConfigField :=
  { type := t, has_value := false, value := List.replicate t.sizeof_value 0 }

/-- The bytes of a string literal (ASCII). -/
def ascii (s : String) : List Byte := s.toList.map (fun c => Fin.ofNat c.toNat)

/-- A record of the schema `Config<E, StringField<65533>>`, whose `serialized_size` is 65538. -/
def wide_record : Config :=
  { has_value := false, _fields := [(FieldType.StringField 65533).zero_field] }

/-- A record of the schema `Config<E, StringField<65533>, UintField>`. -/
def wide_record_grown : Config :=
  { has_value := false
    _fields := [(FieldType.StringField 65533).zero_field, (FieldType.PODField 4).zero_field] }

/-- The block of a field as the binary format lays it out: the two-byte length prefix followed
by the raw payload. -/
def field_block (f : ConfigField) : List Byte :=
  size_bytes f.type.serialized_size ++ f.value

/-- The blocks of the fields in declared order, one after the other. -/
def encode_fields : List ConfigField → List Byte
  | [] => []
  | f :: fs => field_block f ++ encode_fields fs

/-- The record layout of the binary format: the record prefix followed by the field blocks. -/
def Config.encode (c : Config) : List Byte :=
  size_bytes c.serialized_size ++ encode_fields c._fields

/-! ## The records of `Config.cpp` -/

/-- The `Types...` pack of `ConnectedVehicleConfig` (`BoolField = PODField<bool>`). -/
def ConnectedVehicleConfig_types : List FieldType :=
  [.StringField 50, .StringField 20, .StringField 255, .StringField 30, .StringField 30,
    .PODField 1]

/-- The `Types...` pack of `UpgradedConnectedVehicleConfig` (`UintField = PODField<uint32_t>`). -/
def UpgradedConnectedVehicleConfig_types : List FieldType :=
  [.StringField 70, .StringField 20, .StringField 255, .StringField 30, .StringField 30,
    .PODField 1, .PODField 4]

/-- A `ConnectedVehicleConfig` object with zero-filled storage. -/
def ConnectedVehicleConfig : Config :=
  { has_value := false, _fields := ConnectedVehicleConfig_types.map FieldType.zero_field }

/-- An `UpgradedConnectedVehicleConfig` object with zero-filled storage (`readConfig`). -/
def UpgradedConnectedVehicleConfig : Config :=
  { has_value := false, _fields := UpgradedConnectedVehicleConfig_types.map FieldType.zero_field }

/-- The record `config` of `test()` after its three `set_value` calls. -/
def test_config : Config :=
  { has_value := false
    _fields :=
      [ { type := .StringField 50, has_value := false
          value := StringField.set_value 50 (List.replicate 51 0) (ascii "AA BB CC DD EE") },
        { type := .StringField 20, has_value := false
          value := StringField.set_value 20 (List.replicate 21 0)
            (ascii "1DJCAFECAFECAFECAFECAFECAFE") },
        (FieldType.StringField 255).zero_field,
        (FieldType.StringField 30).zero_field,
        (FieldType.StringField 30).zero_field,
        { type := .PODField 1, has_value := false, value := [0] } ] }

/-- The buffer `writeBuffer` of `test()` after `config.serialize(writeBuffer)`. -/
def test_writeBuffer : Mem := test_config.serialize zero_mem 0

/-- The value `diskSize` of `test()`. -/
def test_diskSize : Nat := UpgradedConnectedVehicleConfig.read_root_config_size test_writeBuffer 0

/-- The record `readConfig` of `test()` after `readConfig.deserialize(writeBuffer, diskSize)`. -/
def test_readConfig : Config :=
  (UpgradedConnectedVehicleConfig.deserialize test_writeBuffer 0 test_diskSize).1

/-! ## Memory lemmas -/

theorem peek_length (mem : Mem) (off n : Nat) : (peek mem off n).length = n := by
  induction n generalizing off with
  | zero => rfl
  | succ n ih => simp [peek, ih]

theorem peek_add (mem : Mem) (off n m : Nat) :
    peek mem off (n + m) = peek mem off n ++ peek mem (off + n) m := by
  induction n generalizing off with
  | zero => simp [peek]
  | succ n ih =>
    have h : n + 1 + m = (n + m) + 1 := by omega
    rw [h]
    simp only [peek, List.cons_append, ih]
    have h2 : off + 1 + n = off + (n + 1) := by omega
    rw [h2]

theorem peek_congr (m1 m2 : Mem) (off n : Nat)
    (h : ∀ i, off ≤ i → i < off + n → m1 i = m2 i) : peek m1 off n = peek m2 off n := by
  induction n generalizing off with
  | zero => rfl
  | succ n ih =>
    simp only [peek]
    rw [h off (Nat.le_refl _) (by omega), ih (off + 1) (fun i h1 h2 => h i (by omega) (by omega))]

theorem take_peek (mem : Mem) (off n k : Nat) (h : k ≤ n) :
    (peek mem off n).take k = peek mem off k := by
  obtain ⟨d, rfl⟩ := Nat.exists_eq_add_of_le h
  rw [peek_add, List.take_left' (peek_length _ _ _)]

theorem poke_of_lt (mem : Mem) (off : Nat) (src : List Byte) (i : Nat) (h : i < off) :
    poke mem off src i = mem i := by
  simp [poke, Nat.not_le.mpr h]

theorem poke_of_ge (mem : Mem) (off : Nat) (src : List Byte) (i : Nat)
    (h : off + src.length ≤ i) : poke mem off src i = mem i := by
  unfold poke
  split
  · rw [List.getElem?_eq_none (by omega)]; rfl
  · rfl

theorem poke_at (mem : Mem) (off : Nat) (src : List Byte) (k : Nat) (h : k < src.length) :
    poke mem off src (off + k) = src[k] := by
  simp [poke, h]

theorem getElem_peek (mem : Mem) (off n i : Nat) (h : i < (peek mem off n).length) :
    (peek mem off n)[i] = mem (off + i) := by
  induction n generalizing off i with
  | zero => simp [peek] at h
  | succ n ih =>
    cases i with
    | zero => simp [peek]
    | succ i =>
      simp only [peek, List.getElem_cons_succ]
      rw [ih]
      congr 1
      omega

theorem peek_poke (mem : Mem) (off : Nat) (src : List Byte) :
    peek (poke mem off src) off src.length = src := by
  apply List.ext_getElem (peek_length _ _ _)
  intro i h1 h2
  rw [getElem_peek, poke_at _ _ _ _ h2]

theorem read_size_congr (m1 m2 : Mem) (off : Nat)
    (h : ∀ i, off ≤ i → i < off + 2 → m1 i = m2 i) : read_size m1 off = read_size m2 off := by
  unfold read_size
  rw [h off (Nat.le_refl _) (by omega), h (off + 1) (by omega) (by omega)]

theorem read_size_lt (mem : Mem) (off : Nat) : read_size mem off < 65536 := by
  unfold read_size
  have h1 := (mem off).isLt
  have h2 := (mem (off + 1)).isLt
  omega

theorem read_size_write_size (mem : Mem) (off s : Nat) :
    read_size (write_size mem off s) off = s % 65536 := by
  unfold read_size write_size
  have h0 := poke_at mem off (size_bytes s) 0 (by simp [size_bytes])
  have h1 := poke_at mem off (size_bytes s) 1 (by simp [size_bytes])
  rw [Nat.add_zero] at h0
  rw [h0, h1]
  simp only [size_bytes, List.getElem_cons_zero, List.getElem_cons_succ]
  omega

/-! ## The codecs as one function of the field type -/

theorem field_serialize_eq (f : ConfigField) (mem : Mem) (buf : Nat) :
    f.serialize mem buf
      = poke (write_size mem buf f.type.serialized_size) (buf + 2) f.value := by
  obtain ⟨t, hv, v⟩ := f
  cases t <;> rfl

theorem field_deserialize_eq (f : ConfigField) (mem : Mem) (buf size : Nat) :
    f.deserialize mem buf size
      = ({ f with value := FieldType.terminate f.type (memcpy_from f.value mem (buf + 2)
              (copy_size (read_size mem buf) f.type.sizeof_value)) },
          read_size mem buf) := by
  obtain ⟨t, hv, v⟩ := f
  cases t <;>
    simp only [ConfigField.deserialize, PODField.deserialize, ArrayField.deserialize,
      StringField.deserialize, FieldType.terminate, FieldType.sizeof_value, sizeof_size]

theorem fieldType_serialized_size_eq (t : FieldType) :
    t.serialized_size = 2 + t.sizeof_value := by
  cases t <;> simp [FieldType.serialized_size, FieldType.sizeof_value, PODField.serialized_size,
    ArrayField.serialized_size, StringField.serialized_size, sizeof_size, Nat.add_assoc]

theorem size_t_sub_of_ge (p : Nat) (h1 : 2 ≤ p) (h2 : p < 65536) : size_t_sub p = p - 2 := by
  unfold size_t_sub
  have h : SIZE_T_MOD = 18446744073709551616 := by decide
  rw [h]
  simp only [sizeof_size]
  omega

theorem copy_size_of_ge (p cap : Nat) (h1 : 2 ≤ p) (h2 : p < 65536) :
    copy_size p cap = min (p - 2) cap := by
  unfold copy_size
  rw [size_t_sub_of_ge p h1 h2]
  simp only []
  split <;> omega

theorem field_serialize_below (f : ConfigField) (mem : Mem) (buf i : Nat) (h : i < buf) :
    f.serialize mem buf i = mem i := by
  rw [field_serialize_eq, poke_of_lt _ _ _ _ (by omega), write_size,
    poke_of_lt _ _ _ _ h]

theorem field_serialize_above (f : ConfigField) (mem : Mem) (buf i : Nat)
    (h : buf + 2 + f.value.length ≤ i) : f.serialize mem buf i = mem i := by
  rw [field_serialize_eq, poke_of_ge _ _ _ _ (by omega), write_size,
    poke_of_ge _ _ _ _ (by simp [size_bytes]; omega)]

theorem field_read_size_serialize (f : ConfigField) (mem : Mem) (buf : Nat) :
    read_size (f.serialize mem buf) buf = f.type.serialized_size % 65536 := by
  rw [field_serialize_eq, ← read_size_write_size mem buf]
  apply read_size_congr
  intro i h1 h2
  exact poke_of_lt _ _ _ _ (by omega)

theorem field_peek_serialize (f : ConfigField) (mem : Mem) (buf : Nat) :
    peek (f.serialize mem buf) (buf + 2) f.value.length = f.value := by
  rw [field_serialize_eq, peek_poke]

/-! ## The template recursions as list traversals -/

theorem serialize_fields_append (xs ys : List ConfigField) (st : SerializeState) :
    serialize_fields (xs ++ ys) st = serialize_fields ys (serialize_fields xs st) := by
  induction xs generalizing st with
  | nil => rfl
  | cons x xs ih => simp [serialize_fields, ih]

theorem serialize_each_field_helper_take (c : Config) (n : Nat) (st : SerializeState)
    (h : n ≤ c._fields.length) :
    Config.serialize_each_field_helper c n st = serialize_fields (c._fields.take n) st := by
  induction n with
  | zero => simp [Config.serialize_each_field_helper, serialize_fields]
  | succ n ih =>
    have hn : n < c._fields.length := by omega
    simp only [Config.serialize_each_field_helper, Config.serialize_field_N]
    rw [ih (by omega), List.take_succ, serialize_fields_append, List.getElem?_eq_getElem hn]
    simp [serialize_fields]

theorem serialize_each_field_helper_eq (c : Config) (st : SerializeState) :
    Config.serialize_each_field_helper c c._fields.length st = serialize_fields c._fields st := by
  rw [serialize_each_field_helper_take c _ st (Nat.le_refl _), List.take_length]

theorem deserialize_fields_append (mem : Mem) (xs ys : List ConfigField)
    (st : DeserializeState) :
    deserialize_fields mem (xs ++ ys) st
      = ((deserialize_fields mem xs st).1
            ++ (deserialize_fields mem ys (deserialize_fields mem xs st).2).1,
          (deserialize_fields mem ys (deserialize_fields mem xs st).2).2) := by
  induction xs generalizing st with
  | nil => simp [deserialize_fields]
  | cons x xs ih => simp [deserialize_fields, ih]

theorem deserialize_fields_length (mem : Mem) (xs : List ConfigField) (st : DeserializeState) :
    (deserialize_fields mem xs st).1.length = xs.length := by
  induction xs generalizing st with
  | nil => rfl
  | cons x xs ih => simp [deserialize_fields, ih]

theorem deserialize_field_N_eq (fields : List ConfigField) (N : Nat) (mem : Mem)
    (st : DeserializeState) (h : N < fields.length) :
    Config.deserialize_field_N fields N mem st
      = (fields.set N (deserialize_step fields[N] mem st).1,
          (deserialize_step fields[N] mem st).2) := by
  unfold Config.deserialize_field_N deserialize_step
  rw [List.getElem?_eq_getElem h]
  by_cases hs : st.size = 0 <;> simp [hs]

theorem deserialize_each_field_helper_take (mem : Mem) (fields : List ConfigField) (n : Nat)
    (st : DeserializeState) (h : n ≤ fields.length) :
    Config.deserialize_each_field_helper mem n (fields, st)
      = ((deserialize_fields mem (fields.take n) st).1 ++ fields.drop n,
          (deserialize_fields mem (fields.take n) st).2) := by
  induction n with
  | zero => simp [Config.deserialize_each_field_helper, deserialize_fields]
  | succ n ih =>
    have hn : n < fields.length := by omega
    have hlen : (deserialize_fields mem (fields.take n) st).1.length = n := by
      rw [deserialize_fields_length, List.length_take]; omega
    simp only [Config.deserialize_each_field_helper]
    rw [ih (by omega)]
    have hlt : n < ((deserialize_fields mem (fields.take n) st).1 ++ fields.drop n).length := by
      simp [hlen]; omega
    rw [deserialize_field_N_eq _ _ _ _ hlt]
    have hget : ((deserialize_fields mem (fields.take n) st).1 ++ fields.drop n)[n]
        = fields[n] := by
      rw [List.getElem_append_right (by omega)]
      simp [hlen]
    rw [hget, List.take_succ, deserialize_fields_append, List.getElem?_eq_getElem hn]
    simp only [Option.toList, deserialize_fields]
    congr 1
    rw [List.set_append_right _ _ (by omega), hlen, Nat.sub_self, List.drop_eq_getElem_cons hn]
    simp only [List.set_cons_zero, List.singleton_append, List.append_assoc]

theorem deserialize_each_field_helper_eq (mem : Mem) (fields : List ConfigField)
    (st : DeserializeState) :
    Config.deserialize_each_field_helper mem fields.length (fields, st)
      = deserialize_fields mem fields st := by
  rw [deserialize_each_field_helper_take mem fields _ st (Nat.le_refl _)]
  simp

/-! ## Layout of the serialized bytes -/

theorem serialize_fields_buffer (fs : List ConfigField) (st : SerializeState) :
    (serialize_fields fs st).buffer = st.buffer + fields_serialized_size fs := by
  induction fs generalizing st with
  | nil => rfl
  | cons f fs ih =>
    simp only [serialize_fields, ih, Config.serialize_field, fields_serialized_size]
    omega

theorem serialize_fields_below (fs : List ConfigField) (st : SerializeState) (i : Nat)
    (h : i < st.buffer) : (serialize_fields fs st).mem i = st.mem i := by
  induction fs generalizing st with
  | nil => rfl
  | cons f fs ih =>
    simp only [serialize_fields]
    rw [ih _ (by simp only [Config.serialize_field]; omega)]
    exact field_serialize_below _ _ _ _ h

theorem encoded_serialize_fields (fs : List ConfigField) (st : SerializeState)
    (hwf : ∀ f ∈ fs, f.WellFormed) : Encoded (serialize_fields fs st).mem st.buffer fs := by
  induction fs generalizing st with
  | nil => trivial
  | cons f fs ih =>
    have hf : f.value.length = f.type.sizeof_value := hwf f (List.mem_cons_self _ _)
    have hsz := fieldType_serialized_size_eq f.type
    simp only [serialize_fields, Encoded]
    refine ⟨?_, ?_, ?_⟩
    · rw [← field_read_size_serialize f st.mem st.buffer]
      apply read_size_congr
      intro i h1 h2
      exact serialize_fields_below _ _ _ (by simp only [Config.serialize_field]; omega)
    · refine Eq.trans (peek_congr _ _ _ _ ?_) (field_peek_serialize f st.mem st.buffer)
      intro i h1 h2
      exact serialize_fields_below _ _ _ (by simp only [Config.serialize_field]; omega)
    · exact ih (Config.serialize_field f st) (fun g hg => hwf g (List.mem_cons_of_mem _ hg))

theorem config_serialize_eq (c : Config) (mem : Mem) (buf : Nat) :
    c.serialize mem buf
      = (serialize_fields c._fields
          { mem := write_size mem buf c.serialized_size, buffer := buf + 2 }).mem := by
  unfold Config.serialize
  simp only [serialize_each_field_helper_eq, sizeof_size]

theorem config_read_size_serialize (c : Config) (mem : Mem) (buf : Nat) :
    read_size (c.serialize mem buf) buf = c.serialized_size % 65536 := by
  rw [config_serialize_eq, ← read_size_write_size mem buf]
  apply read_size_congr
  intro i h1 h2
  exact serialize_fields_below _ _ _ (by simp only []; omega)

theorem config_encoded_serialize (c : Config) (mem : Mem) (buf : Nat) (hwf : c.WellFormed) :
    Encoded (c.serialize mem buf) (buf + 2) c._fields := by
  rw [config_serialize_eq]
  exact encoded_serialize_fields c._fields _ hwf

/-! ## Decoding encoded blocks -/

theorem fields_serialized_size_pos (f : ConfigField) (fs : List ConfigField) :
    2 ≤ fields_serialized_size (f :: fs) := by
  have := fieldType_serialized_size_eq f.type
  simp only [fields_serialized_size]
  omega

theorem memcpy_from_encoded (mem : Mem) (off : Nat) (payload old : List Byte) (cap : Nat)
    (h : peek mem off payload.length = payload) :
    memcpy_from old mem off (min payload.length cap)
      = payload.take (min payload.length cap) ++ old.drop (min payload.length cap) := by
  unfold memcpy_from
  rw [← take_peek mem off payload.length _ (Nat.min_le_left _ _), h]

theorem deserialize_step_encoded (mem : Mem) (s d : ConfigField) (ss : List ConfigField)
    (c : Nat) (flag : Bool) (henc : Encoded mem c (s :: ss)) (hwf : s.WellFormed)
    (hfit : fields_serialized_size (s :: ss) < 65536) :
    deserialize_step d mem
        { buffer := c, size := fields_serialized_size (s :: ss), assert_failed := flag }
      = ({ d with has_value := true, value := stored d.type s.value d.value },
          { buffer := c + s.type.serialized_size, size := fields_serialized_size ss,
            assert_failed := flag }) := by
  have hsz := fieldType_serialized_size_eq s.type
  have hlen : s.value.length = s.type.sizeof_value := hwf
  obtain ⟨h1, h2, -⟩ := henc
  simp only [fields_serialized_size] at hfit
  rw [Nat.mod_eq_of_lt (by omega)] at h1
  have hcopy : copy_size s.type.serialized_size d.type.sizeof_value
      = min s.value.length d.type.sizeof_value := by
    rw [copy_size_of_ge s.type.serialized_size d.type.sizeof_value (by omega) (by omega)]
    congr 1
    omega
  unfold deserialize_step Config.deserialize_field
  simp only [fields_serialized_size, field_deserialize_eq, h1, hcopy, sizeof_size,
    memcpy_from_encoded mem (c + 2) s.value d.value d.type.sizeof_value h2, stored]
  have e1 : ¬ (s.type.serialized_size + fields_serialized_size ss = 0) := by omega
  have e2 : ¬ (s.type.serialized_size + fields_serialized_size ss < 2) := by omega
  have e3 : ¬ (s.type.serialized_size > s.type.serialized_size + fields_serialized_size ss) := by
    omega
  simp only [ne_eq, e1, e2, e3, not_false_eq_true, if_true, if_false, Nat.add_sub_cancel_left]

theorem deserialize_fields_absent (mem : Mem) (dst : List ConfigField) (c : Nat) (flag : Bool) :
    deserialize_fields mem dst { buffer := c, size := 0, assert_failed := flag }
      = (decoded [] dst, { buffer := c, size := 0, assert_failed := flag }) := by
  induction dst with
  | nil => rfl
  | cons d ds ih => simp [deserialize_fields, deserialize_step, decoded, ih]

theorem deserialize_fields_encoded (mem : Mem) (src dst : List ConfigField) (c : Nat)
    (flag : Bool) (henc : Encoded mem c src) (hwf : ∀ f ∈ src, f.WellFormed)
    (hfit : fields_serialized_size src < 65536) :
    deserialize_fields mem dst
        { buffer := c, size := fields_serialized_size src, assert_failed := flag }
      = (decoded src dst,
          { buffer := c + fields_serialized_size (src.take dst.length),
            size := fields_serialized_size (src.drop dst.length), assert_failed := flag }) := by
  induction dst generalizing src c with
  | nil => simp [deserialize_fields, decoded, fields_serialized_size]
  | cons d ds ih =>
    cases src with
    | nil =>
      simp only [fields_serialized_size, deserialize_fields_absent, List.take_nil, List.drop_nil,
        Nat.add_zero]
    | cons s ss =>
      have hs : s.WellFormed := hwf s (List.mem_cons_self _ _)
      have hss : ∀ f ∈ ss, f.WellFormed := fun g hg => hwf g (List.mem_cons_of_mem _ hg)
      have hfit2 : fields_serialized_size ss < 65536 := by
        simp only [fields_serialized_size] at hfit; omega
      have hstep := deserialize_step_encoded mem s d ss c flag henc hs hfit
      simp only [deserialize_fields]
      rw [hstep]
      simp only [ih ss (c + s.type.serialized_size) henc.2.2 hss hfit2, decoded, List.length_cons,
        List.take_succ_cons, List.drop_succ_cons, fields_serialized_size, Nat.add_assoc]

/-- Decoding a record from the bytes written by `a.serialize`, into any record `b`. -/
theorem deserialize_serialize (a b : Config) (mem : Mem) (buf size : Nat)
    (hne : a._fields ≠ []) (hfit : a.serialized_size < 65536) (hwf : a.WellFormed)
    (hsize : 2 ≤ size) :
    Config.deserialize b (a.serialize mem buf) buf size
      = ({ has_value := true, _fields := decoded a._fields b._fields }, a.serialized_size) := by
  have hpre := config_read_size_serialize a mem buf
  rw [Nat.mod_eq_of_lt hfit] at hpre
  have henc := config_encoded_serialize a mem buf hwf
  have hA : a.serialized_size = 2 + fields_serialized_size a._fields := rfl
  have hpos : 2 ≤ fields_serialized_size a._fields := by
    cases h : a._fields with
    | nil => exact absurd h hne
    | cons f fs => exact fields_serialized_size_pos f fs
  have hbud : size_t_sub a.serialized_size % SIZE_STORAGE_MOD
      = fields_serialized_size a._fields := by
    rw [size_t_sub_of_ge _ (by omega) hfit, hA, Nat.add_sub_cancel_left, SIZE_STORAGE_MOD]
    exact Nat.mod_eq_of_lt (by omega)
  unfold Config.deserialize Config.deserialize_loop
  simp only [sizeof_size, Nat.not_lt.mpr hsize, if_false, hpre, hbud,
    deserialize_each_field_helper_eq]
  rw [deserialize_fields_encoded _ _ _ _ _ henc hwf (by omega)]
  have e1 : ¬ (fields_serialized_size a._fields = 0) := by omega
  simp only [ne_eq, e1, not_false_eq_true, if_true]

/-! ## Same schema: the round trip -/

theorem set_eq_self_of_getElem? (l : List Byte) (n : Nat) (a : Byte) (h : l[n]? = some a) :
    l.set n a = l := by
  apply List.ext_getElem?
  intro i
  rw [List.getElem?_set]
  split
  · next hi =>
    subst hi
    obtain ⟨hlt, -⟩ := List.getElem?_eq_some_iff.mp h
    simp [hlt, h]
  · rfl

theorem stored_same (t : FieldType) (payload old : List Byte)
    (hp : payload.length = t.sizeof_value) (ho : old.length = t.sizeof_value)
    (hterm : ∀ n, t = .StringField n → payload[n]? = some 0) :
    stored t payload old = payload := by
  unfold stored
  rw [hp, Nat.min_self, ← hp, List.take_length, List.drop_eq_nil_of_le (by omega),
    List.append_nil]
  cases t with
  | PODField n => rfl
  | ArrayField n m => rfl
  | StringField n =>
    simp only [FieldType.terminate]
    exact set_eq_self_of_getElem? _ _ _ (hterm n rfl)

theorem decoded_same (src dst : List ConfigField)
    (hty : dst.map ConfigField.type = src.map ConfigField.type)
    (hs : ∀ f ∈ src, f.WellFormed) (hd : ∀ f ∈ dst, f.WellFormed)
    (hterm : ∀ f ∈ src, f.Terminated) :
    decoded src dst = src.map ConfigField.present := by
  induction dst generalizing src with
  | nil =>
    cases src with
    | nil => rfl
    | cons s ss => simp at hty
  | cons d ds ih =>
    cases src with
    | nil => simp at hty
    | cons s ss =>
      simp only [List.map_cons, List.cons.injEq] at hty
      have h1 : s.WellFormed := hs s (List.mem_cons_self _ _)
      have h2 : d.WellFormed := hd d (List.mem_cons_self _ _)
      have h3 : s.Terminated := hterm s (List.mem_cons_self _ _)
      have hst : stored d.type s.value d.value = s.value := by
        apply stored_same
        · rw [hty.1]; exact h1
        · exact h2
        · intro n hn
          rw [hty.1] at hn
          unfold ConfigField.Terminated at h3
          rw [hn] at h3
          exact h3
      simp only [decoded, List.map_cons, hst, ConfigField.present]
      rw [hty.1, ih ss hty.2 (fun g hg => hs g (List.mem_cons_of_mem _ hg))
        (fun g hg => hd g (List.mem_cons_of_mem _ hg))
        (fun g hg => hterm g (List.mem_cons_of_mem _ hg))]

/-- C1 (round trip): a record `r` of a schema (a non-empty `Types...` pack, as the fold
expression of `serialized_size` requires) whose `serialized_size` fits the 16-bit prefix and
whose text fields are null-terminated in their last byte is serialized, and the bytes are
deserialized (with `size = serialized_size`) into any record `r0` of the same schema.  Then every
field of the result has the value bytes of the corresponding field of `r`, every field has
`has_value = true`, the record has `has_value = true`, and the call returns `serialized_size`. -/
theorem round_trip (r r0 : Config) (mem : Mem) (buf : Nat)
    (hne : r._fields ≠ []) (hfit : r.serialized_size < 65536)
    (hwf : r.WellFormed) (hterm : ∀ f ∈ r._fields, f.Terminated)
    (hschema : r0.schema = r.schema) (hwf0 : r0.WellFormed) :
    ((Config.deserialize r0 (r.serialize mem buf) buf r.serialized_size).1._fields.map
        ConfigField.value = r._fields.map ConfigField.value)
      ∧ (∀ f ∈ (Config.deserialize r0 (r.serialize mem buf) buf r.serialized_size).1._fields,
          f.has_value = true)
      ∧ (Config.deserialize r0 (r.serialize mem buf) buf r.serialized_size).1.has_value = true
      ∧ (Config.deserialize r0 (r.serialize mem buf) buf r.serialized_size).1.schema = r.schema
      ∧ (Config.deserialize r0 (r.serialize mem buf) buf r.serialized_size).2
          = r.serialized_size := by
  have h2 : 2 ≤ r.serialized_size := by unfold Config.serialized_size sizeof_size; omega
  rw [deserialize_serialize r r0 mem buf _ hne hfit hwf h2,
    decoded_same _ _ hschema hwf hwf0 hterm]
  refine ⟨?_, ?_, rfl, ?_, rfl⟩
  · simp [ConfigField.present, Function.comp_def]
  · intro f hf
    obtain ⟨g, -, rfl⟩ := List.mem_map.mp hf
    rfl
  · simp [Config.schema, ConfigField.present, Function.comp_def]

/-- An instance of `round_trip`: a text, a scalar and an array field. -/
theorem round_trip_witness :
    let r : Config := ⟨false, [⟨.StringField 3, false, [72, 105, 0, 0]⟩,
      ⟨.PODField 4, false, [1, 2, 3, 4]⟩, ⟨.ArrayField 2 2, false, [5, 6, 7, 8]⟩]⟩
    let r0 : Config := ⟨false, [⟨.StringField 3, false, [9, 9, 9, 9]⟩,
      ⟨.PODField 4, false, [9, 9, 9, 9]⟩, ⟨.ArrayField 2 2, false, [9, 9, 9, 9]⟩]⟩
    ((Config.deserialize r0 (r.serialize zero_mem 0) 0 r.serialized_size).1._fields.map
        ConfigField.value = r._fields.map ConfigField.value)
      ∧ (∀ f ∈ (Config.deserialize r0 (r.serialize zero_mem 0) 0 r.serialized_size).1._fields,
          f.has_value = true)
      ∧ (Config.deserialize r0 (r.serialize zero_mem 0) 0 r.serialized_size).1.has_value = true
      ∧ (Config.deserialize r0 (r.serialize zero_mem 0) 0 r.serialized_size).1.schema = r.schema
      ∧ (Config.deserialize r0 (r.serialize zero_mem 0) 0 r.serialized_size).2
          = r.serialized_size :=
  round_trip _ _ zero_mem 0 (by decide) (by decide) (by decide) (by decide) (by decide)
    (by decide)

/-! ## Appended fields: schema growth -/

theorem decoded_nil (dst : List ConfigField) : decoded [] dst = dst.map ConfigField.absent := by
  induction dst with
  | nil => rfl
  | cons d ds ih => simp [decoded, ih, ConfigField.absent]

theorem decoded_append (src d1 d2 : List ConfigField) (h : d1.length = src.length) :
    decoded src (d1 ++ d2) = decoded src d1 ++ d2.map ConfigField.absent := by
  induction d1 generalizing src with
  | nil =>
    cases src with
    | nil => simp [decoded_nil]
    | cons s ss => simp at h
  | cons d ds ih =>
    cases src with
    | nil => simp at h
    | cons s ss =>
      simp only [List.length_cons, Nat.add_right_cancel_iff] at h
      simp [decoded, ih ss h]

theorem deserialize_of_empty_payload (b : Config) (mem : Mem) (buf size : Nat)
    (h : read_size mem buf = 2) (hs : 2 ≤ size) :
    Config.deserialize b mem buf size = ({ b with has_value := false }, 2) := by
  have h0 : size_t_sub 2 % SIZE_STORAGE_MOD = 0 := by
    rw [size_t_sub_of_ge 2 (by omega) (by omega)]; rfl
  unfold Config.deserialize
  simp only [sizeof_size, Nat.not_lt.mpr hs, if_false, h, h0, ne_eq, not_true_eq_false]

theorem decoded_growth (src dst : List ConfigField) (extra : List FieldType)
    (hty : dst.map ConfigField.type = src.map ConfigField.type ++ extra)
    (hs : ∀ f ∈ src, f.WellFormed) (hd : ∀ f ∈ dst, f.WellFormed)
    (hterm : ∀ f ∈ src, f.Terminated) :
    decoded src dst
      = src.map ConfigField.present ++ (dst.drop src.length).map ConfigField.absent := by
  have hlen : src.length ≤ dst.length := by
    have := congrArg List.length hty
    simp only [List.length_map, List.length_append] at this
    omega
  have htake : (dst.take src.length).map ConfigField.type = src.map ConfigField.type := by
    rw [← List.take_left' (List.length_map src ConfigField.type), ← hty, List.map_take]
  conv => lhs; rw [← List.take_append_drop src.length dst]
  rw [decoded_append _ _ _ (by rw [List.length_take]; omega),
    decoded_same _ _ htake hs (fun f hf => hd f (List.mem_of_mem_take hf)) hterm]

/-- C2 (schema growth, amended): let the A-record `a` (of a non-empty `Types...` pack) have a
`serialized_size` that fits the 16-bit prefix and text fields that are null-terminated in their
last byte, and let the schema of
`b` be the schema of `a` followed by appended fields.  Deserializing the bytes written by
`a.serialize` into `b`, with `size` the root prefix read by `read_root_config_size`, makes the
first `k` fields equal to the fields of `a` with `has_value = true`, leaves every appended field
as it was except for `has_value = false`, and sets the record's `has_value = true`.  In the
scenario of `test()`, `ConnectedVehicleConfig` read into `UpgradedConnectedVehicleConfig`, the
first six fields are present and `FlashCount` is absent. -/
theorem schema_growth (a b : Config) (extra : List FieldType) (mem : Mem) (buf : Nat)
    (hne : a._fields ≠ []) (hfit : a.serialized_size < 65536)
    (hwf : a.WellFormed) (hterm : ∀ f ∈ a._fields, f.Terminated)
    (hschema : b.schema = a.schema ++ extra) (hwfb : b.WellFormed) :
    ((Config.deserialize b (a.serialize mem buf) buf
          (b.read_root_config_size (a.serialize mem buf) buf)).1
        = { has_value := true
            _fields := a._fields.map ConfigField.present
              ++ (b._fields.drop a._fields.length).map ConfigField.absent })
      ∧ (test_readConfig.has_value = true
          ∧ test_readConfig._fields.map ConfigField.has_value
            = [true, true, true, true, true, true, false]) := by
  refine ⟨?_, by set_option maxRecDepth 20000 in decide⟩
  have hroot : b.read_root_config_size (a.serialize mem buf) buf = a.serialized_size := by
    unfold Config.read_root_config_size
    rw [config_read_size_serialize, Nat.mod_eq_of_lt hfit]
  have h2 : 2 ≤ a.serialized_size := by unfold Config.serialized_size sizeof_size; omega
  rw [hroot, deserialize_serialize a b mem buf _ hne hfit hwf h2,
    decoded_growth _ _ extra hschema hwf hwfb hterm]

/-- An instance of `schema_growth`: a text field and a scalar, with an array field appended. -/
theorem schema_growth_witness :
    let a : Config := ⟨false, [⟨.StringField 3, false, [72, 105, 0, 0]⟩,
      ⟨.PODField 2, false, [1, 2]⟩]⟩
    let b : Config := ⟨false, [⟨.StringField 3, true, [9, 9, 9, 9]⟩,
      ⟨.PODField 2, false, [9, 9]⟩, ⟨.ArrayField 1 2, true, [7, 8]⟩]⟩
    ((Config.deserialize b (a.serialize zero_mem 0) 0
          (b.read_root_config_size (a.serialize zero_mem 0) 0)).1
        = { has_value := true
            _fields := a._fields.map ConfigField.present
              ++ (b._fields.drop a._fields.length).map ConfigField.absent })
      ∧ (test_readConfig.has_value = true
          ∧ test_readConfig._fields.map ConfigField.has_value
            = [true, true, true, true, true, true, false]) :=
  schema_growth _ _ [.ArrayField 1 2] zero_mem 0 (by decide) (by decide) (by decide) (by decide)
    (by decide) (by decide)

theorem wide_record_serialized_size : wide_record.serialized_size = 65538 := rfl

theorem wide_record_wellFormed : wide_record.WellFormed := by
  intro f hf
  simp only [wide_record, List.mem_singleton] at hf
  subst hf
  simp [ConfigField.WellFormed, FieldType.zero_field]

theorem wide_record_root (mem : Mem) (buf : Nat) :
    read_size (wide_record.serialize mem buf) buf = 2 := by
  rw [config_read_size_serialize, wide_record_serialized_size]

/-- C2 as stated fails: (1) a text field whose last byte is not NUL (storage that was never set
through `set_value`) does not come back equal, since `StringField::deserialize` forces
`value[T_SIZE] = 0`; (2) a schema whose `serialized_size` is 65538 stores the root prefix
`65538 % 65536 = 2`, and the record is decoded as absent. -/
theorem schema_growth_counterexample :
    (let a : Config := ⟨false, [⟨.StringField 1, false, [65, 66]⟩]⟩
     let b : Config := ⟨false, [⟨.StringField 1, false, [0, 0]⟩, ⟨.PODField 4, false, [0, 0, 0, 0]⟩]⟩
     a.WellFormed ∧ b.WellFormed ∧ b.schema = a.schema ++ [.PODField 4]
      ∧ ((Config.deserialize b (a.serialize zero_mem 0) 0
            (b.read_root_config_size (a.serialize zero_mem 0) 0)).1._fields.take 1).map
          ConfigField.value = [[65, 0]]
      ∧ a._fields.map ConfigField.value = [[65, 66]])
    ∧ (wide_record.WellFormed
        ∧ wide_record_grown.schema = wide_record.schema ++ [.PODField 4]
        ∧ wide_record.serialized_size = 65538
        ∧ (Config.deserialize wide_record_grown (wide_record.serialize zero_mem 0) 0
            (wide_record_grown.read_root_config_size (wide_record.serialize zero_mem 0) 0)).1.has_value
          = false) := by
  refine ⟨by decide, wide_record_wellFormed, rfl, rfl, ?_⟩
  unfold Config.read_root_config_size
  rw [wide_record_root, deserialize_of_empty_payload _ _ _ _ (wide_record_root _ _) (Nat.le_refl _)]

/-! ## Malformed lengths -/

/-- The flag given by `deserialize_field<N>` depends on the budget alone: the field is marked
present exactly when the budget is not 0 on entry, whatever `deserialize_field` finds. -/
theorem deserialize_step_has_value (f : ConfigField) (mem : Mem) (st : DeserializeState) :
    (deserialize_step f mem st).1.has_value = decide (st.size ≠ 0) := by
  unfold deserialize_step
  by_cases h : st.size = 0 <;> simp [h]

/-- Once the field loop of `Config::deserialize` is entered, the record is marked present. -/
theorem record_present_after_loop (c : Config) (mem : Mem) (buf size : Nat) (hs : 2 ≤ size)
    (hp : size_t_sub (read_size mem buf) % SIZE_STORAGE_MOD ≠ 0) :
    (c.deserialize mem buf size).1.has_value = true := by
  unfold Config.deserialize
  simp only [sizeof_size, Nat.not_lt.mpr hs, if_false, hp, ne_eq, not_false_eq_true, if_true]

/-- C3 (corruption guard), the code at a failing input.  Record of two `UintField`s, buffer
`0E 00 | 06 00 01 02 03 04 | FF FF 05 06 07 08`, `size = 14`.  Field 1 is reached with budget 6 and
its length prefix is 65535: the budget is set to 0 behind an `assert(false)`, but the record's
`has_value` is `true` when `deserialize` returns (and so is that of the aborted field). -/
theorem corruption_guard_record_present :
    let c : Config := ⟨false, [⟨.PODField 4, false, [0, 0, 0, 0]⟩, ⟨.PODField 4, false, [0, 0, 0, 0]⟩]⟩
    let mem := mem_of [14, 0, 6, 0, 1, 2, 3, 4, 255, 255, 5, 6, 7, 8]
    deserialize_step ⟨.PODField 4, false, [0, 0, 0, 0]⟩ mem ⟨2, 12, false⟩
        = (⟨.PODField 4, true, [1, 2, 3, 4]⟩, ⟨8, 6, false⟩)
      ∧ read_size mem 8 = 65535
      ∧ (c.deserialize_loop mem 2 12).2 = ⟨8, 0, true⟩
      ∧ c.deserialize mem 0 14
        = (⟨true, [⟨.PODField 4, true, [1, 2, 3, 4]⟩, ⟨.PODField 4, true, [5, 6, 7, 8]⟩]⟩, 14) := by
  decide

/-- C4 (no out-of-bounds read), the code at failing inputs.  (1) Record of one `UintField`, buffer
`06 00 | FF FF 01 02` of `size = 6`: the field prefix 65535 exceeds the budget 4, yet four payload
bytes are copied from offsets 4..7 before the prefix is compared with the budget, so the decoded
value follows the bytes at offsets 6 and 7.  (2) Buffer `08 00 | 06 00 01 02 03 04` with
`size = 2`: the record prefix 8 is never compared with `size`, and the field is decoded from
offsets 2..7. -/
theorem out_of_bounds_read :
    let c : Config := ⟨false, [⟨.PODField 4, false, [0, 0, 0, 0]⟩]⟩
    (let m1 := mem_of [6, 0, 255, 255, 1, 2, 3, 4]
     let m2 := mem_of [6, 0, 255, 255, 1, 2, 9, 9]
     (∀ i, i < 6 → m1 i = m2 i)
      ∧ c.deserialize m1 0 6 = (⟨true, [⟨.PODField 4, true, [1, 2, 3, 4]⟩]⟩, 6)
      ∧ c.deserialize m2 0 6 = (⟨true, [⟨.PODField 4, true, [1, 2, 9, 9]⟩]⟩, 6))
    ∧ (let m1 := mem_of [8, 0, 6, 0, 1, 2, 3, 4]
       let m2 := mem_of [8, 0, 9, 9, 9, 9, 9, 9]
       (∀ i, i < 2 → m1 i = m2 i)
        ∧ c.deserialize m1 0 2 = (⟨true, [⟨.PODField 4, true, [1, 2, 3, 4]⟩]⟩, 8)
        ∧ c.deserialize m2 0 2 = (⟨true, [⟨.PODField 4, true, [9, 9, 9, 9]⟩]⟩, 8)) := by
  decide

/-- C5 (presence-flag exactness), the code at failing inputs.  Record of two `UintField`s.
(1) Buffer `09 00 | 06 00 01 02 03 04 | 07`: field 1 is reached with budget 1, smaller than a
prefix; the `assert(false)` branch zeroes the budget and nothing is decoded, but the field gets
`has_value = true`.  (2) Buffer `0E 00 | 06 00 01 02 03 04 | FF FF 05 06 07 08`: field 1 has prefix
65535 with budget 6; it gets `has_value = true` as well. -/
theorem presence_flag_after_abort :
    let c : Config := ⟨false, [⟨.PODField 4, false, [0, 0, 0, 0]⟩, ⟨.PODField 4, false, [0, 0, 0, 0]⟩]⟩
    (let mem := mem_of [9, 0, 6, 0, 1, 2, 3, 4, 7]
     deserialize_step ⟨.PODField 4, false, [0, 0, 0, 0]⟩ mem ⟨8, 1, false⟩
        = (⟨.PODField 4, true, [0, 0, 0, 0]⟩, ⟨8, 0, true⟩)
      ∧ (c.deserialize mem 0 9).1._fields.map ConfigField.has_value = [true, true])
    ∧ (let mem := mem_of [14, 0, 6, 0, 1, 2, 3, 4, 255, 255, 5, 6, 7, 8]
       deserialize_step ⟨.PODField 4, false, [0, 0, 0, 0]⟩ mem ⟨8, 6, false⟩
          = (⟨.PODField 4, true, [5, 6, 7, 8]⟩, ⟨8, 0, true⟩)
        ∧ (c.deserialize mem 0 14).1._fields.map ConfigField.has_value = [true, true]) := by
  decide

/-- C9 (field deserialize contract), the code at failing inputs.  For a prefix `p < 2` the
`size_t` subtraction `p - 2` wraps around, `copySize` is clamped to `sizeof(value)`, and the whole
capacity is copied from offset 2: with `p = 0` or `p = 1` a `PODField<uint32_t>`, an
`ArrayField<uint8_t, 4>` and a `StringField<3>` all take four bytes, where the claim has none
copied.  With `p = 2` nothing is copied. -/
theorem deserialize_small_prefix :
    PODField.deserialize 4 [9, 9, 9, 9] (mem_of [0, 0, 1, 2, 3, 4]) 0 6 = ([1, 2, 3, 4], 0)
      ∧ PODField.deserialize 4 [9, 9, 9, 9] (mem_of [1, 0, 1, 2, 3, 4]) 0 6 = ([1, 2, 3, 4], 1)
      ∧ ArrayField.deserialize 1 4 [9, 9, 9, 9] (mem_of [0, 0, 1, 2, 3, 4]) 0 6
          = ([1, 2, 3, 4], 0)
      ∧ StringField.deserialize 3 [9, 9, 9, 9] (mem_of [1, 0, 1, 2, 3, 4]) 0 6
          = ([1, 2, 3, 0], 1)
      ∧ PODField.deserialize 4 [9, 9, 9, 9] (mem_of [2, 0, 1, 2, 3, 4]) 0 6
          = ([9, 9, 9, 9], 2) := by
  decide

/-! ## Changed capacities -/

theorem decoded_eq_zipWith (src dst : List ConfigField) (hlen : dst.length = src.length)
    (hs : ∀ f ∈ src, f.WellFormed) :
    decoded src dst = List.zipWith decode_into src dst := by
  induction dst generalizing src with
  | nil => cases src <;> simp [decoded]
  | cons d ds ih =>
    cases src with
    | nil => simp at hlen
    | cons s ss =>
      have h1 : s.value.length = s.type.sizeof_value := hs s (List.mem_cons_self _ _)
      simp only [List.length_cons, Nat.add_right_cancel_iff] at hlen
      simp only [decoded, List.zipWith_cons_cons, decode_into, stored, h1,
        ih ss hlen (fun g hg => hs g (List.mem_cons_of_mem _ hg))]

/-- C6 (cross-schema cursor alignment, amended): let the record `a` (of a non-empty `Types...`
pack) have a `serialized_size` that fits the 16-bit prefix, and let `b` have the same number of
fields, of any capacities.
Deserializing the bytes written by `a.serialize` into `b` sets the record's `has_value` to `true`
and turns field `i` of `b` into `decode_into a_i b_i`: present, its first
`min(capacity_A_i, capacity_B_i)` value bytes those of `a_i`, the later bytes untouched, and the
last byte of a text field set to 0.  No field depends on the capacities of the fields before
it. -/
theorem cursor_alignment (a b : Config) (mem : Mem) (buf : Nat)
    (hne : a._fields ≠ []) (hfit : a.serialized_size < 65536) (hwf : a.WellFormed)
    (hlen : b._fields.length = a._fields.length) :
    Config.deserialize b (a.serialize mem buf) buf a.serialized_size
      = ({ has_value := true, _fields := List.zipWith decode_into a._fields b._fields },
          a.serialized_size) := by
  have h2 : 2 ≤ a.serialized_size := by unfold Config.serialized_size sizeof_size; omega
  rw [deserialize_serialize a b mem buf _ hne hfit hwf h2, decoded_eq_zipWith _ _ hlen hwf]

/-- An instance of `cursor_alignment`: the text field grows from 3 to 5 characters, the scalar
shrinks from 4 bytes to 2, the array keeps its size; every field is decoded from its own block. -/
theorem cursor_alignment_witness :
    let a : Config := ⟨false, [⟨.StringField 3, false, [72, 105, 33, 0]⟩,
      ⟨.PODField 4, false, [1, 2, 3, 4]⟩, ⟨.ArrayField 1 2, false, [5, 6]⟩]⟩
    let b : Config := ⟨false, [⟨.StringField 5, false, [9, 9, 9, 9, 9, 9]⟩,
      ⟨.PODField 2, false, [9, 9]⟩, ⟨.ArrayField 1 2, false, [9, 9]⟩]⟩
    Config.deserialize b (a.serialize zero_mem 0) 0 a.serialized_size
        = ({ has_value := true, _fields := List.zipWith decode_into a._fields b._fields },
            a.serialized_size)
      ∧ List.zipWith decode_into a._fields b._fields
        = [⟨.StringField 5, true, [72, 105, 33, 0, 9, 0]⟩, ⟨.PODField 2, true, [1, 2]⟩,
            ⟨.ArrayField 1 2, true, [5, 6]⟩] :=
  ⟨cursor_alignment _ _ zero_mem 0 (by decide) (by decide) (by decide) (by decide), by decide⟩

/-- C6 as stated fails for a schema that does not fit the 16-bit prefix: the record
`Config<E, StringField<65533>>` has `serialized_size = 65538`, its root prefix is written as
`65538 % 65536 = 2`, and a record `Config<E, StringField<10>>` (same number of fields, same kind)
decodes it as absent, with its field untouched. -/
theorem cursor_alignment_counterexample :
    wide_record.WellFormed ∧ wide_record.serialized_size = 65538
      ∧ wide_record.schema = [.StringField 65533]
      ∧ Config.deserialize ⟨true, [⟨.StringField 10, true, List.replicate 11 7⟩]⟩
          (wide_record.serialize zero_mem 0) 0 wide_record.serialized_size
        = (⟨false, [⟨.StringField 10, true, List.replicate 11 7⟩]⟩, 2) := by
  refine ⟨wide_record_wellFormed, rfl, rfl, ?_⟩
  rw [deserialize_of_empty_payload _ _ _ _ (wide_record_root _ _)
    (by rw [wide_record_serialized_size]; omega)]

/-! ## The length prefix -/

/-- C10 (self-describing prefix, amended): the first two bytes written by `serialize`, read as a
little-endian unsigned 16-bit integer, are the unit's `serialized_size` reduced modulo 65536 (so
they equal `serialized_size` exactly when it is below 65536), for scalar, array and text fields
and for records. -/
theorem serialize_writes_size (mem : Mem) (buf : Nat) :
    (∀ (sizeof_T : Nat) (value : List Byte),
        read_size (PODField.serialize sizeof_T value mem buf) buf
          = PODField.serialized_size sizeof_T % 65536)
      ∧ (∀ (sizeof_T T_ARR_LEN : Nat) (value : List Byte),
        read_size (ArrayField.serialize sizeof_T T_ARR_LEN value mem buf) buf
          = ArrayField.serialized_size sizeof_T T_ARR_LEN % 65536)
      ∧ (∀ (T_SIZE : Nat) (value : List Byte),
        read_size (StringField.serialize T_SIZE value mem buf) buf
          = StringField.serialized_size T_SIZE % 65536)
      ∧ (∀ c : Config, read_size (c.serialize mem buf) buf = c.serialized_size % 65536) := by
  refine ⟨?_, ?_, ?_, ?_⟩
  · intro n v
    exact field_read_size_serialize ⟨.PODField n, false, v⟩ mem buf
  · intro n m v
    exact field_read_size_serialize ⟨.ArrayField n m, false, v⟩ mem buf
  · intro n v
    exact field_read_size_serialize ⟨.StringField n, false, v⟩ mem buf
  · intro c
    exact config_read_size_serialize c mem buf

/-- C10 as stated fails for a unit of 65536 bytes or more: a `StringField<65534>` has
`serialized_size = 65537` and writes the prefix 1; the record `Config<E, StringField<65533>>` has
`serialized_size = 65538` and writes the prefix 2. -/
theorem serialize_writes_size_counterexample :
    (StringField.serialized_size 65534 = 65537
        ∧ read_size (StringField.serialize 65534 (List.replicate 65535 0) zero_mem 0) 0 = 1)
      ∧ (wide_record.serialized_size = 65538
        ∧ read_size (wide_record.serialize zero_mem 0) 0 = 2) := by
  refine ⟨⟨rfl, ?_⟩, rfl, wide_record_root _ _⟩
  exact field_read_size_serialize ⟨.StringField 65534, false, _⟩ zero_mem 0

/-! ## Text fields -/

theorem set_append_length (pre rest : List Byte) (n : Nat) (a : Byte) (h : pre.length = n) :
    (pre ++ rest).set n a = pre ++ rest.set 0 a := by
  rw [List.set_append_right _ _ (by omega), h, Nat.sub_self]

theorem set_value_eq (T_SIZE : Nat) (value str : List Byte)
    (hv : value.length = T_SIZE + 1) :
    StringField.set_value T_SIZE value str
      = (c_str str).take T_SIZE
          ++ List.replicate (T_SIZE + 1 - ((c_str str).take T_SIZE).length) 0 := by
  unfold StringField.set_value strncpy
  simp only []
  have hc : c_str str = str.takeWhile (fun c => c ≠ 0) := rfl
  rw [← hc]
  generalize ht : (c_str str).take T_SIZE = t
  have htl : t.length ≤ T_SIZE := by rw [← ht, List.length_take]; omega
  obtain ⟨x, hx⟩ : ∃ x, value.drop T_SIZE = [x] := by
    have hl : (value.drop T_SIZE).length = 1 := by rw [List.length_drop]; omega
    match hd : value.drop T_SIZE, hl with
    | [x], _ => exact ⟨x, rfl⟩
  rw [hx, set_append_length _ _ _ _ (by simp; omega)]
  have hrep : T_SIZE + 1 - t.length = (T_SIZE - t.length) + 1 := by omega
  rw [hrep, List.replicate_succ', List.set_cons_zero, List.append_assoc]

theorem c_str_append_zero (s rest : List Byte) (hnz : ∀ c ∈ s, c ≠ 0) :
    c_str (s ++ 0 :: rest) = s := by
  unfold c_str
  rw [List.takeWhile_append_of_pos (by simpa using hnz)]
  simp

theorem c_str_of_nonzero (s : List Byte) (hnz : ∀ c ∈ s, c ≠ 0) : c_str s = s := by
  unfold c_str
  rw [List.takeWhile_eq_self_iff]
  simpa using hnz

theorem string_deserialize_serialize (M N : Nat) (payload dst : List Byte) (mem : Mem)
    (buf size : Nat) (hp : payload.length = M + 1) (hfit : M + 3 < 65536) :
    StringField.deserialize N dst (StringField.serialize M payload mem buf) buf size
      = ((payload.take (min (M + 1) (N + 1)) ++ dst.drop (min (M + 1) (N + 1))).set N 0,
          M + 3) := by
  have hser : StringField.serialize M payload mem buf
      = ConfigField.serialize ⟨.StringField M, false, payload⟩ mem buf := rfl
  have h1 := field_read_size_serialize ⟨.StringField M, false, payload⟩ mem buf
  have h2 := field_peek_serialize ⟨.StringField M, false, payload⟩ mem buf
  have hsz : (FieldType.StringField M).serialized_size = M + 3 := by
    simp [FieldType.serialized_size, StringField.serialized_size, sizeof_size]; omega
  simp only [hsz] at h1 h2
  rw [Nat.mod_eq_of_lt hfit] at h1
  rw [hser]
  unfold StringField.deserialize
  simp only [h1, sizeof_size]
  rw [copy_size_of_ge (M + 3) (N + 1) (by omega) hfit]
  have hmin : min (M + 3 - 2) (N + 1) = min payload.length (N + 1) := by
    rw [hp]; congr 1
  rw [hmin, memcpy_from_encoded _ _ payload dst (N + 1) h2, hp]

theorem set_value_of_short (M : Nat) (s src0 : List Byte) (hs : s.length ≤ M)
    (hnz : ∀ c ∈ s, c ≠ 0) (hsrc : src0.length = M + 1) :
    StringField.set_value M src0 s = s ++ 0 :: List.replicate (M - s.length) 0 := by
  rw [set_value_eq M src0 s hsrc, c_str_of_nonzero s hnz, List.take_of_length_le hs]
  have h : M + 1 - s.length = (M - s.length) + 1 := by omega
  rw [h, List.replicate_succ]

theorem string_deserialize_of_empty_payload (N : Nat) (dst : List Byte) (mem : Mem)
    (buf size : Nat) (h : read_size mem buf = 2) :
    StringField.deserialize N dst mem buf size = (dst.set N 0, 2) := by
  unfold StringField.deserialize
  simp only [h]
  rw [copy_size_of_ge 2 (N + 1) (by omega) (by omega)]
  simp [memcpy_from, peek]

/-- C7 (capacity growth of a text field, amended): let `M < N`, let the block of the
`StringField<M>` fit its 16-bit prefix (`M + 3 < 65536`), and let `s` be a string of length at
most `M` (given by its characters, none of them NUL).  Deserializing the block written by a `StringField<M>` holding `s` (through
`set_value`) into a `StringField<N>` gives a value whose C string is `s`, whose first `M + 1`
bytes are the on-disk payload, whose byte `N` is 0, and whose bytes `M + 1 .. N - 1` are those of
the destination before the call. -/
theorem text_capacity_growth (M N : Nat) (s src0 dst : List Byte) (mem : Mem) (buf size : Nat)
    (hMN : M < N) (hfit : M + 3 < 65536) (hs : s.length ≤ M) (hnz : ∀ c ∈ s, c ≠ 0)
    (hsrc : src0.length = M + 1) (hdst : dst.length = N + 1) :
    c_str (StringField.deserialize N dst
        (StringField.serialize M (StringField.set_value M src0 s) mem buf) buf size).1 = s
      ∧ (StringField.deserialize N dst
          (StringField.serialize M (StringField.set_value M src0 s) mem buf) buf size).1.take (M + 1)
        = StringField.set_value M src0 s
      ∧ (StringField.deserialize N dst
          (StringField.serialize M (StringField.set_value M src0 s) mem buf) buf size).1[N]?
        = some 0
      ∧ (∀ i, M + 1 ≤ i → i < N →
          (StringField.deserialize N dst
            (StringField.serialize M (StringField.set_value M src0 s) mem buf) buf size).1[i]?
          = dst[i]?)
      ∧ (StringField.deserialize N dst
          (StringField.serialize M (StringField.set_value M src0 s) mem buf) buf size).1.length
        = N + 1 := by
  have hw := set_value_of_short M s src0 hs hnz hsrc
  have hwl : (StringField.set_value M src0 s).length = M + 1 := by
    rw [hw]; simp; omega
  rw [string_deserialize_serialize M N _ dst mem buf size hwl hfit]
  have hmin : min (M + 1) (N + 1) = M + 1 := by omega
  simp only [hmin]
  rw [List.take_of_length_le (by omega)]
  have hset : (StringField.set_value M src0 s ++ dst.drop (M + 1)).set N 0
      = StringField.set_value M src0 s ++ (dst.drop (M + 1)).set (N - (M + 1)) 0 := by
    rw [List.set_append_right _ _ (by omega), hwl]
  refine ⟨?_, ?_, ?_, ?_, ?_⟩
  · rw [hset, hw, List.append_assoc, List.cons_append]
    exact c_str_append_zero s _ hnz
  · rw [hset, List.take_left' hwl]
  · rw [List.getElem?_set_self (by simp [hwl]; omega)]
  · intro i h1 h2
    rw [List.getElem?_set_ne (by omega), List.getElem?_append_right (by omega), hwl,
      List.getElem?_drop]
    congr 1
    omega
  · simp [hwl]; omega

set_option maxRecDepth 20000 in
/-- The scenario of `test()`: "AA BB CC DD EE" written by a `StringField<50>` and read by a
`StringField<70>` is the same C string, by `text_capacity_growth`. -/
theorem text_capacity_growth_witness :
    c_str (StringField.deserialize 70 (List.replicate 71 0)
        (StringField.serialize 50
          (StringField.set_value 50 (List.replicate 51 0) (ascii "AA BB CC DD EE")) zero_mem 2)
        2 403).1 = ascii "AA BB CC DD EE" :=
  (text_capacity_growth 50 70 (ascii "AA BB CC DD EE") (List.replicate 51 0)
    (List.replicate 71 0) zero_mem 2 403 (by decide) (by decide) (by decide) (by decide)
    (by decide) (by decide)).1

/-- C7 as stated fails when the `StringField<M>` block does not fit its 16-bit prefix: for
`M = 65535` the block has `serialized_size = 65538` and carries the prefix 2, so a
`StringField<65536>` copies nothing from it and keeps its old bytes (here "BBB..."), not "A". -/
theorem text_capacity_growth_counterexample :
    StringField.serialized_size 65535 = 65538
      ∧ (StringField.deserialize 65536 (List.replicate 65537 66)
          (StringField.serialize 65535 (StringField.set_value 65535 (List.replicate 65536 0) [65])
            zero_mem 0) 0 65538).1
        = (List.replicate 65537 66).set 65536 0
      ∧ c_str (StringField.deserialize 65536 (List.replicate 65537 66)
          (StringField.serialize 65535 (StringField.set_value 65535 (List.replicate 65536 0) [65])
            zero_mem 0) 0 65538).1
        ≠ [65] := by
  have hroot : read_size (StringField.serialize 65535
      (StringField.set_value 65535 (List.replicate 65536 0) [65]) zero_mem 0) 0 = 2 :=
    field_read_size_serialize ⟨.StringField 65535, false, _⟩ zero_mem 0
  rw [string_deserialize_of_empty_payload _ _ _ _ _ hroot]
  refine ⟨rfl, rfl, ?_⟩
  have hrep : List.replicate 65537 (66 : Byte) = 66 :: List.replicate 65536 66 :=
    List.replicate_succ 66 65536
  simp only [hrep, List.set_cons_succ, c_str]
  rw [List.takeWhile_cons_of_pos (by decide)]
  intro h
  exact absurd (List.cons.inj h).1 (by decide)

/-- C8 (capacity shrink of a text field, amended): let `N < M`, let the block of the
`StringField<M>` fit its 16-bit prefix (`M + 3 < 65536`), and let `s` be a string with
`N < length(s) <= M` (given by its characters, none of them NUL).  Deserializing the block written by a `StringField<M>` holding `s` into a
`StringField<N>` gives a value whose C string is the first `N` characters of `s`, with
`value[N] = 0`, and the call returns the on-disk size `M + 1 + 2`. -/
theorem text_capacity_shrink (M N : Nat) (s src0 dst : List Byte) (mem : Mem) (buf size : Nat)
    (hNM : N < M) (hfit : M + 3 < 65536) (hs1 : N < s.length) (hs2 : s.length ≤ M)
    (hnz : ∀ c ∈ s, c ≠ 0) (hsrc : src0.length = M + 1) (hdst : dst.length = N + 1) :
    c_str (StringField.deserialize N dst
        (StringField.serialize M (StringField.set_value M src0 s) mem buf) buf size).1
        = s.take N
      ∧ (StringField.deserialize N dst
          (StringField.serialize M (StringField.set_value M src0 s) mem buf) buf size).1[N]?
        = some 0
      ∧ (StringField.deserialize N dst
          (StringField.serialize M (StringField.set_value M src0 s) mem buf) buf size).1
        = s.take N ++ [0]
      ∧ (StringField.deserialize N dst
          (StringField.serialize M (StringField.set_value M src0 s) mem buf) buf size).2
        = M + 1 + 2 := by
  have hw := set_value_of_short M s src0 hs2 hnz hsrc
  have hwl : (StringField.set_value M src0 s).length = M + 1 := by
    rw [hw]; simp; omega
  rw [string_deserialize_serialize M N _ dst mem buf size hwl hfit]
  have hmin : min (M + 1) (N + 1) = N + 1 := by omega
  have hval : ((StringField.set_value M src0 s).take (N + 1) ++ dst.drop (N + 1)).set N 0
      = s.take N ++ [0] := by
    rw [List.drop_eq_nil_of_le (by omega), List.append_nil, hw,
      List.take_append_of_le_length (by omega), List.take_succ,
      List.getElem?_eq_getElem hs1, Option.toList,
      set_append_length _ _ _ _ (by rw [List.length_take]; omega), List.set_cons_zero]
  rw [hmin, hval]
  refine ⟨c_str_append_zero _ [] (fun c hc => hnz c (List.mem_of_mem_take hc)), ?_, rfl, rfl⟩
  show (s.take N ++ [0])[N]? = some 0
  rw [List.getElem?_append_right (by rw [List.length_take]; omega), List.length_take,
    Nat.min_eq_left (by omega), Nat.sub_self]
  rfl

set_option maxRecDepth 20000 in
/-- An instance of `text_capacity_shrink`: "HELLO" written by a `StringField<8>` and read by a
`StringField<3>` is "HEL". -/
theorem text_capacity_shrink_witness :
    c_str (StringField.deserialize 3 [9, 9, 9, 9]
        (StringField.serialize 8 (StringField.set_value 8 (List.replicate 9 0) (ascii "HELLO"))
          zero_mem 0) 0 11).1
        = ascii "HEL"
      ∧ (StringField.deserialize 3 [9, 9, 9, 9]
          (StringField.serialize 8 (StringField.set_value 8 (List.replicate 9 0) (ascii "HELLO"))
            zero_mem 0) 0 11).2
        = 11 :=
  have h := text_capacity_shrink 8 3 (ascii "HELLO") (List.replicate 9 0) [9, 9, 9, 9] zero_mem 0
    11 (by decide) (by decide) (by decide) (by decide) (by decide) (by decide) (by decide)
  ⟨h.1, h.2.2.2⟩

/-- C8 as stated fails when the `StringField<M>` block does not fit its 16-bit prefix: for
`M = 65533` the on-disk size `M + 1 + 2` is 65536, the prefix is written as 0, and that is what
`deserialize` returns. -/
theorem text_capacity_shrink_counterexample :
    (StringField.deserialize 0 [9]
        (StringField.serialize 65533 (StringField.set_value 65533 (List.replicate 65534 0) [65])
          zero_mem 0) 0 65536).2 = 0
      ∧ 65533 + 1 + 2 = 65536 := by
  refine ⟨?_, rfl⟩
  exact field_read_size_serialize ⟨.StringField 65533, false, _⟩ zero_mem 0

/-! ## The encoded size -/

theorem fields_serialized_size_eq_sum (fs : List ConfigField) :
    fields_serialized_size fs
      = ((fs.map ConfigField.type).map FieldType.serialized_size).sum := by
  induction fs with
  | nil => rfl
  | cons f fs ih => simp [fields_serialized_size, ih]

/-- C11 (encoded size formula): `Config::serialized_size`, and `get_serialized_size()`, is 2 plus
the sum of `serialized_size` over the declared field types, where `PODField<T>` contributes
`2 + sizeof(T)`, `ArrayField<T, L>` contributes `2 + sizeof(T) * L` and `StringField<N>`
contributes `2 + N + 1`; replacing every field's value and `has_value` leaves it unchanged.
`ConnectedVehicleConfig` has `serialized_size` 405 and `UpgradedConnectedVehicleConfig` 431. -/
theorem serialized_size_formula :
    (∀ c : Config,
        c.serialized_size = 2 + (c.schema.map FieldType.serialized_size).sum
          ∧ c.get_serialized_size = 2 + (c.schema.map FieldType.serialized_size).sum)
      ∧ (∀ sizeof_T : Nat, PODField.serialized_size sizeof_T = 2 + sizeof_T
          ∧ (FieldType.PODField sizeof_T).serialized_size = 2 + sizeof_T)
      ∧ (∀ sizeof_T T_ARR_LEN : Nat,
          ArrayField.serialized_size sizeof_T T_ARR_LEN = 2 + sizeof_T * T_ARR_LEN
          ∧ (FieldType.ArrayField sizeof_T T_ARR_LEN).serialized_size = 2 + sizeof_T * T_ARR_LEN)
      ∧ (∀ T_SIZE : Nat, StringField.serialized_size T_SIZE = 2 + T_SIZE + 1
          ∧ (FieldType.StringField T_SIZE).serialized_size = 2 + T_SIZE + 1)
      ∧ (∀ (c : Config) (hv : Bool) (flag : ConfigField → Bool)
          (value : ConfigField → List Byte),
          Config.serialized_size
              ⟨hv, c._fields.map (fun f => ⟨f.type, flag f, value f⟩)⟩
            = c.serialized_size)
      ∧ ConnectedVehicleConfig.serialized_size = 405
      ∧ UpgradedConnectedVehicleConfig.serialized_size = 431 := by
  refine ⟨?_, fun _ => ⟨rfl, rfl⟩, fun _ _ => ⟨rfl, rfl⟩, fun _ => ⟨rfl, rfl⟩, ?_, by decide,
    by decide⟩
  · intro c
    have h : c.serialized_size = 2 + (c.schema.map FieldType.serialized_size).sum := by
      unfold Config.serialized_size Config.schema
      rw [fields_serialized_size_eq_sum, sizeof_size]
    exact ⟨h, h⟩
  · intro c hv flag value
    unfold Config.serialized_size
    simp only [fields_serialized_size_eq_sum, List.map_map]
    rfl

/-! ## The layout written by `serialize` -/

theorem poke_poke_adjacent (mem : Mem) (off : Nat) (a b : List Byte) :
    poke (poke mem off a) (off + a.length) b = poke mem off (a ++ b) := by
  funext i
  unfold poke
  by_cases h1 : off ≤ i
  · by_cases h2 : off + a.length ≤ i
    · have h3 : a[i - off]? = none := List.getElem?_eq_none (by omega)
      have h4 : i - off - a.length = i - (off + a.length) := by omega
      simp only [h1, h2, if_true, h3, Option.getD_none,
        List.getElem?_append_right (show a.length ≤ i - off by omega), h4]
    · have h3 : i - off < a.length := by omega
      simp only [h1, h2, if_true, if_false, List.getElem?_append_left h3]
  · have h2 : ¬ (off + a.length ≤ i) := by omega
    simp only [h1, h2, if_false]

theorem size_bytes_length (n : Nat) : (size_bytes n).length = 2 := rfl

theorem field_block_length (f : ConfigField) (h : f.WellFormed) :
    (field_block f).length = f.type.serialized_size := by
  have hl : f.value.length = f.type.sizeof_value := h
  rw [field_block, List.length_append, size_bytes_length, hl, fieldType_serialized_size_eq]

theorem encode_fields_length (fs : List ConfigField) (h : ∀ f ∈ fs, f.WellFormed) :
    (encode_fields fs).length = fields_serialized_size fs := by
  induction fs with
  | nil => rfl
  | cons f fs ih =>
    rw [encode_fields, List.length_append, field_block_length f (h f (List.mem_cons_self _ _)),
      ih (fun g hg => h g (List.mem_cons_of_mem _ hg)), fields_serialized_size]

theorem field_serialize_eq_poke (f : ConfigField) (mem : Mem) (buf : Nat) :
    f.serialize mem buf = poke mem buf (field_block f) := by
  rw [field_serialize_eq, write_size, field_block, ← poke_poke_adjacent, size_bytes_length]

theorem serialize_fields_eq_poke (fs : List ConfigField) (st : SerializeState)
    (h : ∀ f ∈ fs, f.WellFormed) :
    (serialize_fields fs st).mem = poke st.mem st.buffer (encode_fields fs) := by
  induction fs generalizing st with
  | nil =>
    funext i
    simp [serialize_fields, encode_fields, poke]
  | cons f fs ih =>
    rw [serialize_fields, ih _ (fun g hg => h g (List.mem_cons_of_mem _ hg)), encode_fields,
      ← poke_poke_adjacent, field_block_length f (h f (List.mem_cons_self _ _))]
    simp only [Config.serialize_field, field_serialize_eq_poke]

theorem config_serialize_eq_poke (c : Config) (mem : Mem) (buf : Nat) (h : c.WellFormed) :
    c.serialize mem buf = poke mem buf c.encode := by
  rw [config_serialize_eq, serialize_fields_eq_poke _ _ h, Config.encode, write_size,
    ← poke_poke_adjacent, size_bytes_length]

theorem config_encode_length (c : Config) (h : c.WellFormed) :
    c.encode.length = c.serialized_size := by
  rw [Config.encode, List.length_append, size_bytes_length, encode_fields_length _ h,
    Config.serialized_size, sizeof_size]

theorem peek_poke_infix (mem : Mem) (off : Nat) (a b c : List Byte) :
    peek (poke mem off (a ++ b ++ c)) (off + a.length) b.length = b := by
  apply List.ext_getElem (peek_length _ _ _)
  intro i h1 h2
  rw [getElem_peek]
  have h3 : off + a.length + i = off + (a.length + i) := by omega
  rw [h3, poke_at _ _ _ _ (by simp only [List.length_append]; omega)]
  simp [List.getElem_append_right, List.getElem_append_left, h2]

theorem encode_fields_split (fs : List ConfigField) (i : Nat) (f : ConfigField)
    (h : fs[i]? = some f) :
    encode_fields fs
      = encode_fields (fs.take i) ++ field_block f ++ encode_fields (fs.drop (i + 1)) := by
  induction fs generalizing i with
  | nil => simp at h
  | cons g gs ih =>
    cases i with
    | zero =>
      simp only [List.getElem?_cons_zero, Option.some.injEq] at h
      subst h
      simp [encode_fields]
    | succ i =>
      simp only [List.getElem?_cons_succ] at h
      simp only [List.take_succ_cons, List.drop_succ_cons, encode_fields, ih i h,
        List.append_assoc]

/-- C12 (serialize layout): for every record (with storage of the lengths its types fix),
`Config::serialize` stores at `buf` exactly the `serialized_size` bytes of `Config.encode`, the
record prefix followed by the blocks of the fields in declared order; the block of field `i`,
its own two-byte prefix and then its raw payload, starts at offset
`2 + serialized_size of fields 0..i-1`; and no byte before `buf` or at or beyond
`buf + serialized_size` is changed. -/
theorem serialize_layout (c : Config) (mem : Mem) (buf : Nat) (hwf : c.WellFormed) :
    c.serialize mem buf = poke mem buf c.encode
      ∧ c.encode.length = c.serialized_size
      ∧ peek (c.serialize mem buf) buf c.serialized_size = c.encode
      ∧ peek (c.serialize mem buf) buf 2 = size_bytes c.serialized_size
      ∧ (∀ (i : Nat) (f : ConfigField), c._fields[i]? = some f →
          peek (c.serialize mem buf) (buf + (2 + fields_serialized_size (c._fields.take i)))
              f.type.serialized_size
            = size_bytes f.type.serialized_size ++ f.value)
      ∧ (∀ i, i < buf ∨ buf + c.serialized_size ≤ i → c.serialize mem buf i = mem i) := by
  have hs := config_serialize_eq_poke c mem buf hwf
  have hl := config_encode_length c hwf
  refine ⟨hs, hl, ?_, ?_, ?_, ?_⟩
  · rw [hs, ← hl, peek_poke]
  · rw [hs, Config.encode]
    have h := peek_poke_infix mem buf [] (size_bytes c.serialized_size) (encode_fields c._fields)
    simpa using h
  · intro i f hf
    have hfwf : f.WellFormed := hwf f (List.getElem?_mem hf)
    have htake : ∀ g ∈ c._fields.take i, g.WellFormed :=
      fun g hg => hwf g (List.mem_of_mem_take hg)
    have h := peek_poke_infix mem buf
      (size_bytes c.serialized_size ++ encode_fields (c._fields.take i)) (field_block f)
      (encode_fields (c._fields.drop (i + 1)))
    rw [List.length_append, size_bytes_length, encode_fields_length _ htake,
      field_block_length f hfwf] at h
    rw [hs, Config.encode, encode_fields_split _ i f hf]
    simpa [List.append_assoc, field_block] using h
  · intro i hi
    rw [hs]
    rcases hi with hi | hi
    · exact poke_of_lt _ _ _ _ hi
    · exact poke_of_ge _ _ _ _ (by rw [hl]; exact hi)

/-- An instance of `serialize_layout`: a text field, a scalar and an array, written at offset 3
of a memory of `FF` bytes. -/
theorem serialize_layout_witness :
    Config.serialize ⟨false, [⟨.StringField 3, false, [72, 105, 0, 0]⟩,
        ⟨.PODField 2, false, [1, 2]⟩, ⟨.ArrayField 1 2, false, [5, 6]⟩]⟩ (fun _ => 255) 3
      = poke (fun _ => 255) 3
          (Config.encode ⟨false, [⟨.StringField 3, false, [72, 105, 0, 0]⟩,
            ⟨.PODField 2, false, [1, 2]⟩, ⟨.ArrayField 1 2, false, [5, 6]⟩]⟩)
      ∧ Config.encode ⟨false, [⟨.StringField 3, false, [72, 105, 0, 0]⟩,
          ⟨.PODField 2, false, [1, 2]⟩, ⟨.ArrayField 1 2, false, [5, 6]⟩]⟩
        = [16, 0, 6, 0, 72, 105, 0, 0, 4, 0, 1, 2, 4, 0, 5, 6] :=
  ⟨(serialize_layout _ (fun _ => 255) 3 (by decide)).1, by decide⟩

/-! ## A reader with fewer fields than the writer -/

theorem deserialize_step_block (mem : Mem) (s d : ConfigField) (c rest : Nat) (flag : Bool)
    (h1 : read_size mem c = s.type.serialized_size % 65536)
    (h2 : peek mem (c + 2) s.value.length = s.value) (hwf : s.WellFormed)
    (hfit : s.type.serialized_size + rest < 65536) :
    deserialize_step d mem
        { buffer := c, size := s.type.serialized_size + rest, assert_failed := flag }
      = ({ d with has_value := true, value := stored d.type s.value d.value },
          { buffer := c + s.type.serialized_size, size := rest, assert_failed := flag }) := by
  have hsz := fieldType_serialized_size_eq s.type
  have hlen : s.value.length = s.type.sizeof_value := hwf
  rw [Nat.mod_eq_of_lt (by omega)] at h1
  have hcopy : copy_size s.type.serialized_size d.type.sizeof_value
      = min s.value.length d.type.sizeof_value := by
    rw [copy_size_of_ge s.type.serialized_size d.type.sizeof_value (by omega) (by omega)]
    congr 1
    omega
  unfold deserialize_step Config.deserialize_field
  simp only [field_deserialize_eq, h1, hcopy, sizeof_size,
    memcpy_from_encoded mem (c + 2) s.value d.value d.type.sizeof_value h2, stored]
  have e1 : ¬ (s.type.serialized_size + rest = 0) := by omega
  have e2 : ¬ (s.type.serialized_size + rest < 2) := by omega
  have e3 : ¬ (s.type.serialized_size > s.type.serialized_size + rest) := by omega
  simp only [ne_eq, e1, e2, e3, not_false_eq_true, if_true, if_false, Nat.add_sub_cancel_left]

theorem deserialize_fields_encoded_extra (mem : Mem) (src dst : List ConfigField)
    (c extra : Nat) (flag : Bool) (henc : Encoded mem c src) (hwf : ∀ f ∈ src, f.WellFormed)
    (hlen : dst.length ≤ src.length) (hfit : fields_serialized_size src + extra < 65536) :
    deserialize_fields mem dst
        { buffer := c, size := fields_serialized_size src + extra, assert_failed := flag }
      = (decoded src dst,
          { buffer := c + fields_serialized_size (src.take dst.length),
            size := fields_serialized_size (src.drop dst.length) + extra,
            assert_failed := flag }) := by
  induction dst generalizing src c with
  | nil => simp [deserialize_fields, decoded, fields_serialized_size]
  | cons d ds ih =>
    cases src with
    | nil => simp at hlen
    | cons s ss =>
      have hs : s.WellFormed := hwf s (List.mem_cons_self _ _)
      have hss : ∀ f ∈ ss, f.WellFormed := fun g hg => hwf g (List.mem_cons_of_mem _ hg)
      simp only [fields_serialized_size] at hfit
      have hstep := deserialize_step_block mem s d c (fields_serialized_size ss + extra) flag
        henc.1 henc.2.1 hs (by omega)
      simp only [List.length_cons, Nat.add_le_add_iff_right] at hlen
      simp only [deserialize_fields, fields_serialized_size, Nat.add_assoc]
      rw [hstep]
      simp only [ih ss (c + s.type.serialized_size) henc.2.2 hss hlen (by omega), decoded,
        List.length_cons, List.take_succ_cons, List.drop_succ_cons, fields_serialized_size,
        Nat.add_assoc]

theorem encoded_take (mem : Mem) (c : Nat) (fs : List ConfigField) (k : Nat)
    (h : Encoded mem c fs) : Encoded mem c (fs.take k) := by
  induction fs generalizing c k with
  | nil => simpa using h
  | cons f fs ih =>
    cases k with
    | zero => trivial
    | succ k => exact ⟨h.1, h.2.1, ih _ k h.2.2⟩

theorem encoded_congr (m1 m2 : Mem) (c : Nat) (fs : List ConfigField) (h : Encoded m1 c fs)
    (hwf : ∀ f ∈ fs, f.WellFormed)
    (hagree : ∀ i, c ≤ i → i < c + fields_serialized_size fs → m2 i = m1 i) :
    Encoded m2 c fs := by
  induction fs generalizing c with
  | nil => trivial
  | cons f fs ih =>
    have hf : f.value.length = f.type.sizeof_value := hwf f (List.mem_cons_self _ _)
    have hsz := fieldType_serialized_size_eq f.type
    simp only [fields_serialized_size] at hagree
    refine ⟨?_, ?_, ?_⟩
    · rw [← h.1]
      exact read_size_congr _ _ _ (fun i h1 h2 => hagree i h1 (by omega))
    · refine Eq.trans (peek_congr m2 m1 (c + 2) f.value.length ?_) h.2.1
      intro i h1 h2
      exact hagree i (by omega) (by omega)
    · exact ih _ h.2.2 (fun g hg => hwf g (List.mem_cons_of_mem _ hg))
        (fun i h1 h2 => hagree i (by omega) (by omega))

theorem fields_serialized_size_append (xs ys : List ConfigField) :
    fields_serialized_size (xs ++ ys) = fields_serialized_size xs + fields_serialized_size ys := by
  induction xs with
  | nil => simp [fields_serialized_size]
  | cons x xs ih => simp [fields_serialized_size, ih, Nat.add_assoc]

theorem fields_serialized_size_of_types (xs ys : List ConfigField)
    (h : xs.map ConfigField.type = ys.map ConfigField.type) :
    fields_serialized_size xs = fields_serialized_size ys := by
  rw [fields_serialized_size_eq_sum, fields_serialized_size_eq_sum, h]

theorem deserialize_ret (c : Config) (mem : Mem) (buf size : Nat) (hs : 2 ≤ size) :
    (c.deserialize mem buf size).2 = read_size mem buf := by
  unfold Config.deserialize
  simp only [sizeof_size, Nat.not_lt.mpr hs, if_false]
  split <;> rfl

/-- Decoding into a record `a` with at most as many fields as the writer `b`, from any memory
that agrees with the bytes written by `b.serialize` on the root prefix and on the blocks of the
first `a._fields.length` fields. -/
theorem deserialize_front_of_serialize (a b : Config) (mem mem2 : Mem) (buf size : Nat)
    (hne : a._fields ≠ []) (hfit : b.serialized_size < 65536) (hwf : b.WellFormed)
    (hlen : a._fields.length ≤ b._fields.length) (hsize : 2 ≤ size)
    (hagree : ∀ i, buf ≤ i →
      i < buf + (2 + fields_serialized_size (b._fields.take a._fields.length)) →
      mem2 i = b.serialize mem buf i) :
    Config.deserialize a mem2 buf size
      = ({ has_value := true, _fields := decoded (b._fields.take a._fields.length) a._fields },
          b.serialized_size) := by
  have hpos : 0 < a._fields.length := List.length_pos.mpr hne
  have hsplit : fields_serialized_size b._fields
      = fields_serialized_size (b._fields.take a._fields.length)
        + fields_serialized_size (b._fields.drop a._fields.length) := by
    rw [← fields_serialized_size_append, List.take_append_drop]
  have hB : b.serialized_size = 2 + fields_serialized_size b._fields := rfl
  have htake_pos : 2 ≤ fields_serialized_size (b._fields.take a._fields.length) := by
    cases h : b._fields.take a._fields.length with
    | nil =>
      have := congrArg List.length h
      simp only [List.length_take, List.length_nil] at this
      omega
    | cons f fs => exact fields_serialized_size_pos f fs
  have hpre : read_size mem2 buf = b.serialized_size := by
    rw [← Nat.mod_eq_of_lt hfit, ← config_read_size_serialize b mem buf]
    exact read_size_congr _ _ _ (fun i h1 h2 => hagree i h1 (by omega))
  have henc : Encoded mem2 (buf + 2) (b._fields.take a._fields.length) := by
    apply encoded_congr (b.serialize mem buf) mem2 _ _
      (encoded_take _ _ _ _ (config_encoded_serialize b mem buf hwf))
      (fun f hf => hwf f (List.mem_of_mem_take hf))
    intro i h1 h2
    exact hagree i (by omega) (by omega)
  have hbud : size_t_sub b.serialized_size % SIZE_STORAGE_MOD
      = fields_serialized_size (b._fields.take a._fields.length)
        + fields_serialized_size (b._fields.drop a._fields.length) := by
    rw [size_t_sub_of_ge _ (by omega) hfit, hB, Nat.add_sub_cancel_left, SIZE_STORAGE_MOD,
      ← hsplit]
    exact Nat.mod_eq_of_lt (by omega)
  unfold Config.deserialize Config.deserialize_loop
  simp only [sizeof_size, Nat.not_lt.mpr hsize, if_false, hpre, hbud,
    deserialize_each_field_helper_eq]
  rw [deserialize_fields_encoded_extra _ _ _ _ _ _ henc
    (fun f hf => hwf f (List.mem_of_mem_take hf))
    (by rw [List.length_take]; omega) (by omega)]
  have e1 : ¬ (fields_serialized_size (b._fields.take a._fields.length)
      + fields_serialized_size (b._fields.drop a._fields.length) = 0) := by omega
  simp only [ne_eq, e1, not_false_eq_true, if_true]

/-- C13 (old reader, newer data, amended): let the schema of `b` be the schema of `a` followed by
appended fields, let the `serialized_size` of `b` fit the 16-bit prefix and let the text fields
of `b` be null-terminated in their last byte.  Deserializing the bytes written by `b.serialize`
into `a`, with `size` the root prefix, gives every field of `a` the value of the corresponding
field of `b` with `has_value = true`, sets the record's `has_value = true` and returns the
`serialized_size` of `b`.  The same holds for every memory that agrees with those bytes below
offset `buf + a.serialized_size`: the blocks of the appended fields, which start there, are not
read. -/
theorem old_reader_new_data (a b : Config) (extra : List FieldType) (mem : Mem) (buf : Nat)
    (hne : a._fields ≠ []) (hfit : b.serialized_size < 65536) (hwfb : b.WellFormed)
    (hterm : ∀ f ∈ b._fields, f.Terminated) (hschema : b.schema = a.schema ++ extra)
    (hwfa : a.WellFormed) :
    Config.deserialize a (b.serialize mem buf) buf
        (a.read_root_config_size (b.serialize mem buf) buf)
        = ({ has_value := true
             _fields := (b._fields.take a._fields.length).map ConfigField.present },
            b.serialized_size)
      ∧ (∀ mem2 : Mem, (∀ i, i < buf + a.serialized_size → mem2 i = b.serialize mem buf i) →
          Config.deserialize a mem2 buf (a.read_root_config_size mem2 buf)
            = ({ has_value := true
                 _fields := (b._fields.take a._fields.length).map ConfigField.present },
                b.serialized_size)) := by
  have hlen : a._fields.length ≤ b._fields.length := by
    have := congrArg List.length hschema
    simp only [Config.schema, List.length_map, List.length_append] at this
    omega
  have hty : a._fields.map ConfigField.type
      = (b._fields.take a._fields.length).map ConfigField.type := by
    have h1 : (b._fields.map ConfigField.type).take a._fields.length
        = a._fields.map ConfigField.type := by
      have h2 : b._fields.map ConfigField.type = a._fields.map ConfigField.type ++ extra :=
        hschema
      rw [h2, List.take_left' (List.length_map _ _)]
    rw [← h1, List.map_take]
  have hA : a.serialized_size
      = 2 + fields_serialized_size (b._fields.take a._fields.length) := by
    unfold Config.serialized_size
    rw [fields_serialized_size_of_types _ _ hty, sizeof_size]
  have hB : 2 ≤ b.serialized_size := by unfold Config.serialized_size sizeof_size; omega
  have key : ∀ mem2 : Mem, (∀ i, i < buf + a.serialized_size → mem2 i = b.serialize mem buf i) →
      Config.deserialize a mem2 buf (a.read_root_config_size mem2 buf)
        = ({ has_value := true
             _fields := (b._fields.take a._fields.length).map ConfigField.present },
            b.serialized_size) := by
    intro mem2 hagree
    have hpos : 0 < a._fields.length := List.length_pos.mpr hne
    have hroot : a.read_root_config_size mem2 buf = b.serialized_size := by
      unfold Config.read_root_config_size
      rw [← Nat.mod_eq_of_lt hfit, ← config_read_size_serialize b mem buf]
      exact read_size_congr _ _ _ (fun i h1 h2 => hagree i (by omega))
    rw [hroot, deserialize_front_of_serialize a b mem mem2 buf _ hne hfit hwfb hlen hB
      (fun i h1 h2 => hagree i (by omega)),
      decoded_same _ _ hty (fun f hf => hwfb f (List.mem_of_mem_take hf)) hwfa
        (fun f hf => hterm f (List.mem_of_mem_take hf))]
  exact ⟨key _ (fun _ _ => rfl), key⟩

/-- An instance of `old_reader_new_data`: a reader with a text field and a scalar decodes the
bytes of a writer that has an array field appended. -/
theorem old_reader_new_data_witness :
    Config.deserialize ⟨false, [⟨.StringField 3, false, [9, 9, 9, 9]⟩, ⟨.PODField 2, false, [9, 9]⟩]⟩
        (Config.serialize ⟨false, [⟨.StringField 3, false, [72, 105, 0, 0]⟩,
          ⟨.PODField 2, false, [1, 2]⟩, ⟨.ArrayField 1 2, false, [7, 8]⟩]⟩ zero_mem 0) 0
        (Config.read_root_config_size ⟨false, []⟩
          (Config.serialize ⟨false, [⟨.StringField 3, false, [72, 105, 0, 0]⟩,
            ⟨.PODField 2, false, [1, 2]⟩, ⟨.ArrayField 1 2, false, [7, 8]⟩]⟩ zero_mem 0) 0)
      = (⟨true, [⟨.StringField 3, true, [72, 105, 0, 0]⟩, ⟨.PODField 2, true, [1, 2]⟩]⟩, 16) :=
  (old_reader_new_data
    ⟨false, [⟨.StringField 3, false, [9, 9, 9, 9]⟩, ⟨.PODField 2, false, [9, 9]⟩]⟩
    ⟨false, [⟨.StringField 3, false, [72, 105, 0, 0]⟩, ⟨.PODField 2, false, [1, 2]⟩,
      ⟨.ArrayField 1 2, false, [7, 8]⟩]⟩
    [.ArrayField 1 2] zero_mem 0 (by decide) (by decide) (by decide) (by decide) (by decide)
    (by decide)).1

/-- C13 as stated fails: (1) a text field of the writer whose last byte is not NUL does not come
back equal, since `StringField::deserialize` forces `value[T_SIZE] = 0`; (2) for the writer
`Config<E, StringField<65533>, UintField>`, of `serialized_size` 65544, the reader
`Config<E, StringField<65533>>` returns the root prefix `65544 % 65536 = 8`, not the on-disk
size. -/
theorem old_reader_new_data_counterexample :
    (let a : Config := ⟨false, [⟨.StringField 1, false, [0, 0]⟩]⟩
     let b : Config := ⟨false, [⟨.StringField 1, false, [65, 66]⟩, ⟨.PODField 4, false, [1, 2, 3, 4]⟩]⟩
     a.WellFormed ∧ b.WellFormed ∧ b.schema = a.schema ++ [.PODField 4]
      ∧ Config.deserialize a (b.serialize zero_mem 0) 0
          (a.read_root_config_size (b.serialize zero_mem 0) 0)
        = (⟨true, [⟨.StringField 1, true, [65, 0]⟩]⟩, 12))
    ∧ (wide_record_grown.schema = wide_record.schema ++ [.PODField 4]
        ∧ wide_record_grown.serialized_size = 65544
        ∧ (Config.deserialize wide_record (wide_record_grown.serialize zero_mem 0) 0
            (wide_record.read_root_config_size (wide_record_grown.serialize zero_mem 0) 0)).2
          = 8) := by
  refine ⟨by decide, rfl, rfl, ?_⟩
  have hroot : read_size (wide_record_grown.serialize zero_mem 0) 0 = 8 := by
    rw [config_read_size_serialize]; rfl
  unfold Config.read_root_config_size
  rw [hroot, deserialize_ret _ _ _ _ (by omega), hroot]

/-! ## The record-level early-out -/

theorem deserialize_of_short (c : Config) (mem : Mem) (buf size : Nat) (hs : size < 2) :
    Config.deserialize c mem buf size = ({ c with has_value := false }, size) := by
  unfold Config.deserialize
  have h : size % SIZE_STORAGE_MOD = size := Nat.mod_eq_of_lt (by unfold SIZE_STORAGE_MOD; omega)
  simp only [sizeof_size, hs, if_true, h]

/-- C14 (record early-out), the code at failing inputs.  Record of one `UintField` holding
`09 09 09 09` with `has_value = false`.  Buffer `00 00 | 06 00 01 02 03 04` (record prefix 0) and
buffer `01 00 | 06 00 01 02 03 04` (record prefix 1), `size = 8`: the subtraction
`diskSize - sizeof(ConfigFieldSizeStorageType)` wraps around, the budget is 65534 (or 65535), the
field loop runs, the field is overwritten and marked present and the record gets
`has_value = true`, where the claim has the record absent and the fields untouched.  With
prefix 2, or `size < 2`, the record is marked absent and the field is untouched. -/
theorem early_out_small_prefix :
    let c : Config := ⟨false, [⟨.PODField 4, false, [9, 9, 9, 9]⟩]⟩
    size_t_sub 0 % SIZE_STORAGE_MOD = 65534
      ∧ size_t_sub 1 % SIZE_STORAGE_MOD = 65535
      ∧ c.deserialize (mem_of [0, 0, 6, 0, 1, 2, 3, 4]) 0 8
        = (⟨true, [⟨.PODField 4, true, [1, 2, 3, 4]⟩]⟩, 0)
      ∧ c.deserialize (mem_of [1, 0, 6, 0, 1, 2, 3, 4]) 0 8
        = (⟨true, [⟨.PODField 4, true, [1, 2, 3, 4]⟩]⟩, 1)
      ∧ c.deserialize (mem_of [2, 0, 6, 0, 1, 2, 3, 4]) 0 8
        = (⟨false, [⟨.PODField 4, false, [9, 9, 9, 9]⟩]⟩, 2)
      ∧ c.deserialize (mem_of [8, 0, 6, 0, 1, 2, 3, 4]) 0 1
        = (⟨false, [⟨.PODField 4, false, [9, 9, 9, 9]⟩]⟩, 1) := by
  decide

/-! ## The terminator of a text field -/

theorem copy_size_le (p cap : Nat) : copy_size p cap ≤ cap := by
  unfold copy_size
  simp only []
  split <;> omega

theorem memcpy_from_length (value : List Byte) (mem : Mem) (off n : Nat)
    (h : n ≤ value.length) : (memcpy_from value mem off n).length = value.length := by
  unfold memcpy_from
  rw [List.length_append, peek_length, List.length_drop]
  omega

theorem c_str_length_le (v : List Byte) (n : Nat) (h : v[n]? = some 0) :
    (c_str v).length ≤ n := by
  induction v generalizing n with
  | nil => simp at h
  | cons x xs ih =>
    unfold c_str
    cases n with
    | zero =>
      simp only [List.getElem?_cons_zero, Option.some.injEq] at h
      subst h
      simp
    | succ n =>
      simp only [List.getElem?_cons_succ] at h
      have := ih n h
      unfold c_str at this
      rw [List.takeWhile_cons]
      split
      · simp only [List.length_cons]; omega
      · simp

theorem set_value_length (T_SIZE : Nat) (value str : List Byte)
    (hv : value.length = T_SIZE + 1) :
    (StringField.set_value T_SIZE value str).length = T_SIZE + 1 := by
  rw [set_value_eq T_SIZE value str hv, List.length_append, List.length_replicate]
  have : ((c_str str).take T_SIZE).length ≤ T_SIZE := by rw [List.length_take]; omega
  omega

theorem string_deserialize_value (N : Nat) (value : List Byte) (mem : Mem) (buf size : Nat) :
    (StringField.deserialize N value mem buf size).1
      = (memcpy_from value mem (buf + 2) (copy_size (read_size mem buf) (N + 1))).set N 0 := by
  simp only [StringField.deserialize, sizeof_size]

/-- C15 (text fields are always terminated): for every `N`, every prior storage of a
`StringField<N>` (of its `N + 1` bytes), every source buffer and every input string, after
`deserialize` and after `set_value` the storage still has `N + 1` bytes, its last byte
`value[N]` is 0, and the C string it holds has at most `N` characters. -/
theorem text_always_terminated (N : Nat) (value str : List Byte) (mem : Mem) (buf size : Nat)
    (hv : value.length = N + 1) :
    ((StringField.deserialize N value mem buf size).1[N]? = some 0
        ∧ (StringField.deserialize N value mem buf size).1.length = N + 1
        ∧ (c_str (StringField.deserialize N value mem buf size).1).length ≤ N)
      ∧ ((StringField.set_value N value str)[N]? = some 0
        ∧ (StringField.set_value N value str).length = N + 1
        ∧ (c_str (StringField.set_value N value str)).length ≤ N) := by
  have hdes := string_deserialize_value N value mem buf size
  have hk := copy_size_le (read_size mem buf) (N + 1)
  generalize copy_size (read_size mem buf) (N + 1) = k at hdes hk
  have hlen : (StringField.deserialize N value mem buf size).1.length = N + 1 := by
    rw [hdes, List.length_set, memcpy_from_length _ _ _ _ (by omega), hv]
  have hget : (StringField.deserialize N value mem buf size).1[N]? = some 0 := by
    rw [hdes] at hlen ⊢
    rw [List.length_set] at hlen
    exact List.getElem?_set_self (by omega)
  have hlen2 := set_value_length N value str hv
  have hget2 : (StringField.set_value N value str)[N]? = some 0 := by
    unfold StringField.set_value
    have hl : (strncpy value str N).length = N + 1 := by
      have := hlen2
      unfold StringField.set_value at this
      simpa using this
    exact List.getElem?_set_self (by omega)
  exact ⟨⟨hget, hlen, c_str_length_le _ _ hget⟩, ⟨hget2, hlen2, c_str_length_le _ _ hget2⟩⟩

/-- An instance of `text_always_terminated`: a `StringField<3>` holding `41 42 43 44` (no
terminator), decoded from a block with the nonsensical prefix `FF FF` and set to a long string,
ends in a NUL byte both times. -/
theorem text_always_terminated_witness :
    ((StringField.deserialize 3 [65, 66, 67, 68] (mem_of [255, 255, 1, 2, 3, 4, 5]) 0 7).1[3]?
          = some 0
        ∧ (StringField.deserialize 3 [65, 66, 67, 68] (mem_of [255, 255, 1, 2, 3, 4, 5]) 0 7).1.length
          = 3 + 1
        ∧ (c_str
            (StringField.deserialize 3 [65, 66, 67, 68] (mem_of [255, 255, 1, 2, 3, 4, 5]) 0 7).1).length
          ≤ 3)
      ∧ ((StringField.set_value 3 [65, 66, 67, 68] [72, 69, 76, 76, 79])[3]? = some 0
        ∧ (StringField.set_value 3 [65, 66, 67, 68] [72, 69, 76, 76, 79]).length = 3 + 1
        ∧ (c_str (StringField.set_value 3 [65, 66, 67, 68] [72, 69, 76, 76, 79])).length ≤ 3) :=
  text_always_terminated 3 [65, 66, 67, 68] [72, 69, 76, 76, 79]
    (mem_of [255, 255, 1, 2, 3, 4, 5]) 0 7 (by decide)

/-! ## Peeking the root prefix -/

/-- C16 (`read_root_config_size` peeks the root prefix): applied to the bytes written by
`r.serialize`, for a record `r` whose `serialized_size` fits 16 bits, it returns that
`serialized_size`; and on every buffer it returns the value that `Config::deserialize` returns
for that buffer when `size >= 2`.  The function yields nothing but that value: its body writes
only the local `size`, so neither the buffer nor the record changes. -/
theorem read_root_config_size_peeks (r c : Config) (mem mem2 : Mem) (buf size : Nat)
    (hfit : r.serialized_size < 65536) (hsize : 2 ≤ size) :
    c.read_root_config_size (r.serialize mem buf) buf = r.serialized_size
      ∧ (c.deserialize mem2 buf size).2 = c.read_root_config_size mem2 buf := by
  refine ⟨?_, deserialize_ret c mem2 buf size hsize⟩
  unfold Config.read_root_config_size
  rw [config_read_size_serialize, Nat.mod_eq_of_lt hfit]

set_option maxRecDepth 20000 in
/-- The scenario of `test()`: `readConfig.read_root_config_size(writeBuffer)` is 405, the
`serialized_size` of `ConnectedVehicleConfig`, and `readConfig.deserialize` returns the same. -/
theorem read_root_config_size_peeks_witness :
    UpgradedConnectedVehicleConfig.read_root_config_size (test_config.serialize zero_mem 0) 0
        = test_config.serialized_size
      ∧ (UpgradedConnectedVehicleConfig.deserialize (test_config.serialize zero_mem 0) 0 405).2
        = UpgradedConnectedVehicleConfig.read_root_config_size
            (test_config.serialize zero_mem 0) 0 :=
  read_root_config_size_peeks test_config UpgradedConnectedVehicleConfig zero_mem
    (test_config.serialize zero_mem 0) 0 405 (by decide) (by decide)

/-! ## `set_value` -/

/-- C17 (`set_value` truncates to capacity): for every input string `s` (given by its
characters, none of them NUL) and every `StringField<N>`, after `set_value(s)` the first
`min(length(s), N)` bytes of the value are the first characters of `s`, every byte from there up
to and including `value[N]` is 0, and the stored C string is `s` when `length(s) <= N` and the
first `N` characters of `s` otherwise. -/
theorem set_value_truncates (N : Nat) (value s : List Byte) (hv : value.length = N + 1)
    (hnz : ∀ c ∈ s, c ≠ 0) :
    (StringField.set_value N value s).take (min s.length N) = s.take N
      ∧ (∀ i, min s.length N ≤ i → i ≤ N → (StringField.set_value N value s)[i]? = some 0)
      ∧ c_str (StringField.set_value N value s) = (if s.length ≤ N then s else s.take N)
      ∧ (StringField.set_value N value s).length = N + 1 := by
  have hlen : (s.take N).length = min s.length N := by rw [List.length_take, Nat.min_comm]
  have hw : StringField.set_value N value s
      = s.take N ++ List.replicate (N + 1 - min s.length N) 0 := by
    rw [set_value_eq N value s hv, c_str_of_nonzero s hnz, hlen]
  have hle : min s.length N ≤ N := Nat.min_le_right _ _
  refine ⟨?_, ?_, ?_, set_value_length N value s hv⟩
  · rw [hw, List.take_left' hlen]
  · intro i h1 h2
    rw [hw, List.getElem?_append_right (by omega), hlen,
      List.getElem?_replicate_of_lt (by omega)]
  · have hrep : N + 1 - min s.length N = (N - min s.length N) + 1 := by omega
    rw [hw, hrep, List.replicate_succ,
      c_str_append_zero _ _ (fun c hc => hnz c (List.mem_of_mem_take hc))]
    split
    · next h => exact List.take_of_length_le h
    · rfl

set_option maxRecDepth 20000 in
/-- The scenario of `test()`: the 27-character VIN "1DJCAFECAFECAFECAFECAFECAFE" set on a
`StringField<20>` is stored as its first 20 characters. -/
theorem set_value_truncates_witness :
    c_str (StringField.set_value 20 (List.replicate 21 0) (ascii "1DJCAFECAFECAFECAFECAFECAFE"))
      = ascii "1DJCAFECAFECAFECAFEC" :=
  (set_value_truncates 20 (List.replicate 21 0) (ascii "1DJCAFECAFECAFECAFECAFECAFE")
    (by decide) (by decide)).2.2.1.trans (by decide)

/-! ## The budget -/

theorem deserialize_field_state (f : ConfigField) (mem : Mem) (st : DeserializeState) :
    ((Config.deserialize_field f mem st).2.buffer + (Config.deserialize_field f mem st).2.size
          = st.buffer + st.size
        ∧ st.buffer ≤ (Config.deserialize_field f mem st).2.buffer
        ∧ (Config.deserialize_field f mem st).2.assert_failed = st.assert_failed)
      ∨ ((Config.deserialize_field f mem st).2.assert_failed = true
        ∧ (Config.deserialize_field f mem st).2.size = 0
        ∧ (Config.deserialize_field f mem st).2.buffer = st.buffer) := by
  unfold Config.deserialize_field
  split
  · exact Or.inr ⟨rfl, rfl, rfl⟩
  · by_cases h2 : (f.deserialize mem st.buffer st.size).2 > st.size
    · right
      simp [h2]
    · left
      simp only [h2, if_false, Nat.le_add_right, and_true]
      omega

theorem deserialize_field_N_state (fields : List ConfigField) (N : Nat) (mem : Mem)
    (st : DeserializeState) :
    ((Config.deserialize_field_N fields N mem st).2.buffer
          + (Config.deserialize_field_N fields N mem st).2.size = st.buffer + st.size
        ∧ st.buffer ≤ (Config.deserialize_field_N fields N mem st).2.buffer
        ∧ (Config.deserialize_field_N fields N mem st).2.assert_failed = st.assert_failed)
      ∨ ((Config.deserialize_field_N fields N mem st).2.assert_failed = true
        ∧ (Config.deserialize_field_N fields N mem st).2.size = 0
        ∧ (Config.deserialize_field_N fields N mem st).2.buffer = st.buffer) := by
  unfold Config.deserialize_field_N
  split
  · next f _ =>
    split
    · exact deserialize_field_state f mem st
    · exact Or.inl ⟨rfl, Nat.le_refl _, rfl⟩
  · exact Or.inl ⟨rfl, Nat.le_refl _, rfl⟩

theorem loop_state_succ (c : Config) (mem : Mem) (buf budget n : Nat) :
    c.loop_state mem buf budget (n + 1)
      = (Config.deserialize_field_N
          (Config.deserialize_each_field_helper mem n
            (c._fields, { buffer := buf, size := budget, assert_failed := false })).1 n mem
          (c.loop_state mem buf budget n)).2 := rfl

theorem loop_state_inv (c : Config) (mem : Mem) (buf budget n : Nat) :
    (c.loop_state mem buf budget n).buffer + (c.loop_state mem buf budget n).size
        ≤ buf + budget
      ∧ buf ≤ (c.loop_state mem buf budget n).buffer
      ∧ ((c.loop_state mem buf budget n).assert_failed = false →
          (c.loop_state mem buf budget n).buffer + (c.loop_state mem buf budget n).size
            = buf + budget) := by
  induction n with
  | zero => exact ⟨Nat.le_refl _, Nat.le_refl _, fun _ => rfl⟩
  | succ n ih =>
    rw [loop_state_succ]
    rcases deserialize_field_N_state
      (Config.deserialize_each_field_helper mem n
        (c._fields, { buffer := buf, size := budget, assert_failed := false })).1 n mem
      (c.loop_state mem buf budget n) with ⟨h1, h2, h3⟩ | ⟨h1, h2, h3⟩
    · refine ⟨by omega, by omega, fun hf => ?_⟩
      rw [h3] at hf
      have := ih.2.2 hf
      omega
    · refine ⟨by omega, by omega, fun hf => ?_⟩
      rw [h1] at hf
      exact absurd hf (by decide)

/-- C18 (budget invariant): let the field loop of `Config::deserialize` start at cursor `buf`
with budget `budget` (the record payload length `(prefix - 2) mod 2^16`), and look at the loop
state `s` after any number `n` of `deserialize_field<N>` calls and the state `t` one call later.
The budget never exceeds its initial value and never increases; the cursor never moves back and
never advances more than the initial budget; one call either moves `consumed` bytes from the
budget to the cursor without underflow (`t.buffer + t.size = s.buffer + s.size`) or aborts
(budget 0, cursor unmoved, behind an `assert(false)`); and as long as no abort has occurred the
bytes consumed so far plus the remaining budget equal the initial budget. -/
theorem budget_invariant (c : Config) (mem : Mem) (buf budget n : Nat) :
    ((c.loop_state mem buf budget n).size ≤ budget
        ∧ buf ≤ (c.loop_state mem buf budget n).buffer
        ∧ (c.loop_state mem buf budget n).buffer - buf ≤ budget
        ∧ ((c.loop_state mem buf budget n).assert_failed = true
            ∨ ((c.loop_state mem buf budget n).buffer - buf)
              + (c.loop_state mem buf budget n).size = budget))
      ∧ ((c.loop_state mem buf budget (n + 1)).size ≤ (c.loop_state mem buf budget n).size
        ∧ (c.loop_state mem buf budget n).buffer ≤ (c.loop_state mem buf budget (n + 1)).buffer
        ∧ ((c.loop_state mem buf budget (n + 1)).buffer
              + (c.loop_state mem buf budget (n + 1)).size
              = (c.loop_state mem buf budget n).buffer + (c.loop_state mem buf budget n).size
            ∨ (c.loop_state mem buf budget (n + 1)).assert_failed = true
              ∧ (c.loop_state mem buf budget (n + 1)).size = 0
              ∧ (c.loop_state mem buf budget (n + 1)).buffer
                = (c.loop_state mem buf budget n).buffer))
      ∧ (c.deserialize_loop mem buf budget).2 = c.loop_state mem buf budget c._fields.length
      ∧ c.loop_state mem buf budget 0
        = { buffer := buf, size := budget, assert_failed := false } := by
  have hs := loop_state_inv c mem buf budget n
  have hstep := deserialize_field_N_state
    (Config.deserialize_each_field_helper mem n
      (c._fields, { buffer := buf, size := budget, assert_failed := false })).1 n mem
    (c.loop_state mem buf budget n)
  rw [← loop_state_succ] at hstep
  refine ⟨⟨by omega, hs.2.1, by omega, ?_⟩, ⟨?_, ?_, ?_⟩, rfl, rfl⟩
  · cases hf : (c.loop_state mem buf budget n).assert_failed with
    | true => exact Or.inl rfl
    | false =>
      have := hs.2.2 hf
      exact Or.inr (by omega)
  · rcases hstep with ⟨h1, h2, -⟩ | ⟨-, h2, h3⟩ <;> omega
  · rcases hstep with ⟨h1, h2, -⟩ | ⟨-, h2, h3⟩ <;> omega
  · rcases hstep with ⟨h1, -, -⟩ | ⟨h1, h2, h3⟩
    · exact Or.inl h1
    · exact Or.inr ⟨h1, h2, h3⟩

/-! ## The presence flags after the field loop -/

theorem deserialize_step_of_zero (f : ConfigField) (mem : Mem) (st : DeserializeState)
    (h : st.size = 0) : deserialize_step f mem st = (f.absent, st) := by
  unfold deserialize_step
  simp [h, ConfigField.absent]

theorem deserialize_fields_of_zero (mem : Mem) (fs : List ConfigField) (st : DeserializeState)
    (h : st.size = 0) : deserialize_fields mem fs st = (fs.map ConfigField.absent, st) := by
  induction fs with
  | nil => rfl
  | cons f fs ih => simp only [deserialize_fields, deserialize_step_of_zero f mem st h, ih, List.map_cons]

theorem deserialize_fields_flags (mem : Mem) (fs : List ConfigField) (st : DeserializeState) :
    ∃ m, m ≤ fs.length
      ∧ (∀ f ∈ (deserialize_fields mem fs st).1.take m, f.has_value = true)
      ∧ (deserialize_fields mem fs st).1.drop m = (fs.drop m).map ConfigField.absent := by
  induction fs generalizing st with
  | nil => exact ⟨0, Nat.le_refl _, by simp, rfl⟩
  | cons f fs ih =>
    by_cases h : st.size = 0
    · refine ⟨0, Nat.zero_le _, by simp, ?_⟩
      rw [deserialize_fields_of_zero mem _ st h]
      rfl
    · obtain ⟨m, hm, h1, h2⟩ := ih (deserialize_step f mem st).2
      refine ⟨m + 1, by simp only [List.length_cons]; omega, ?_, ?_⟩
      · intro g hg
        simp only [deserialize_fields, List.take_succ_cons, List.mem_cons] at hg
        rcases hg with hg | hg
        · rw [hg, deserialize_step_has_value]
          simpa using h
        · exact h1 g hg
      · simpa only [deserialize_fields, List.drop_succ_cons] using h2

/-- C19 (presence flags form a prefix): whenever `Config::deserialize` runs the field loop
(`size >= 2` and a record payload length that is not 0), there is an index `m` such that after
the call fields `0..m-1` have `has_value = true` and fields `m..k-1` are the fields of the record
before the call with `has_value = false`: every field after the first absent one is absent, and
its stored value is unchanged. -/
theorem presence_flags_prefix (c : Config) (mem : Mem) (buf size : Nat) (hs : 2 ≤ size)
    (hp : size_t_sub (read_size mem buf) % SIZE_STORAGE_MOD ≠ 0) :
    ∃ m, m ≤ c._fields.length
      ∧ (∀ f ∈ (c.deserialize mem buf size).1._fields.take m, f.has_value = true)
      ∧ (c.deserialize mem buf size).1._fields.drop m
        = (c._fields.drop m).map ConfigField.absent
      ∧ (c.deserialize mem buf size).1._fields.map ConfigField.has_value
        = List.replicate m true ++ List.replicate (c._fields.length - m) false := by
  have hfields : (c.deserialize mem buf size).1._fields
      = (deserialize_fields mem c._fields
          { buffer := buf + 2, size := size_t_sub (read_size mem buf) % SIZE_STORAGE_MOD,
            assert_failed := false }).1 := by
    unfold Config.deserialize Config.deserialize_loop
    simp only [sizeof_size, Nat.not_lt.mpr hs, if_false, hp, ne_eq, not_false_eq_true, if_true,
      deserialize_each_field_helper_eq]
  rw [hfields]
  obtain ⟨m, hm, h1, h2⟩ := deserialize_fields_flags mem c._fields
    { buffer := buf + 2, size := size_t_sub (read_size mem buf) % SIZE_STORAGE_MOD,
      assert_failed := false }
  refine ⟨m, hm, h1, h2, ?_⟩
  have hlen := deserialize_fields_length mem c._fields
    { buffer := buf + 2, size := size_t_sub (read_size mem buf) % SIZE_STORAGE_MOD,
      assert_failed := false }
  generalize (deserialize_fields mem c._fields
    { buffer := buf + 2, size := size_t_sub (read_size mem buf) % SIZE_STORAGE_MOD,
      assert_failed := false }).1 = res at h1 h2 hlen
  rw [← List.take_append_drop m res, List.map_append, h2]
  congr 1
  · rw [List.eq_replicate_iff]
    refine ⟨by simp [List.length_take]; omega, ?_⟩
    intro b hb
    obtain ⟨f, hf, rfl⟩ := List.mem_map.mp hb
    exact h1 f hf
  · rw [List.eq_replicate_iff]
    refine ⟨by simp [List.length_drop], ?_⟩
    intro b hb
    simp only [List.map_map, List.mem_map, Function.comp] at hb
    obtain ⟨f, -, rfl⟩ := hb
    rfl

/-- An instance of `presence_flags_prefix`: three `UintField`s and a buffer whose record prefix
announces one field block (`08 00 | 06 00 01 02 03 04`); field 0 is present, fields 1 and 2 are
absent and keep their bytes. -/
theorem presence_flags_prefix_witness :
    ∃ m, m ≤ 3
      ∧ (∀ f ∈ (Config.deserialize
            ⟨false, [⟨.PODField 4, false, [9, 9, 9, 9]⟩, ⟨.PODField 4, true, [8, 8, 8, 8]⟩,
              ⟨.PODField 4, true, [7, 7, 7, 7]⟩]⟩
            (mem_of [8, 0, 6, 0, 1, 2, 3, 4]) 0 8).1._fields.take m, f.has_value = true)
      ∧ (Config.deserialize
            ⟨false, [⟨.PODField 4, false, [9, 9, 9, 9]⟩, ⟨.PODField 4, true, [8, 8, 8, 8]⟩,
              ⟨.PODField 4, true, [7, 7, 7, 7]⟩]⟩
            (mem_of [8, 0, 6, 0, 1, 2, 3, 4]) 0 8).1._fields.drop m
        = (List.drop m [⟨.PODField 4, false, [9, 9, 9, 9]⟩, ⟨.PODField 4, true, [8, 8, 8, 8]⟩,
            ⟨.PODField 4, true, [7, 7, 7, 7]⟩]).map ConfigField.absent
      ∧ (Config.deserialize
            ⟨false, [⟨.PODField 4, false, [9, 9, 9, 9]⟩, ⟨.PODField 4, true, [8, 8, 8, 8]⟩,
              ⟨.PODField 4, true, [7, 7, 7, 7]⟩]⟩
            (mem_of [8, 0, 6, 0, 1, 2, 3, 4]) 0 8).1._fields.map ConfigField.has_value
        = List.replicate m true ++ List.replicate (3 - m) false :=
  presence_flags_prefix
    ⟨false, [⟨.PODField 4, false, [9, 9, 9, 9]⟩, ⟨.PODField 4, true, [8, 8, 8, 8]⟩,
      ⟨.PODField 4, true, [7, 7, 7, 7]⟩]⟩
    (mem_of [8, 0, 6, 0, 1, 2, 3, 4]) 0 8 (by decide) (by decide)

/-! ## Decoding twice, and decoding into different records -/

theorem deserialize_step_eq (f : ConfigField) (mem : Mem) (st : DeserializeState) :
    deserialize_step f mem st
      = if st.size = 0 then (f.absent, st)
        else if st.size < 2 then
          (f.present, { buffer := st.buffer, size := 0, assert_failed := true })
        else
          ({ type := f.type, has_value := true
             value := FieldType.terminate f.type (memcpy_from f.value mem (st.buffer + 2)
               (copy_size (read_size mem st.buffer) f.type.sizeof_value)) },
            if read_size mem st.buffer > st.size then
              { buffer := st.buffer, size := 0, assert_failed := true }
            else
              { buffer := st.buffer + read_size mem st.buffer,
                size := st.size - read_size mem st.buffer,
                assert_failed := st.assert_failed }) := by
  unfold deserialize_step Config.deserialize_field
  simp only [field_deserialize_eq, sizeof_size]
  by_cases h0 : st.size = 0
  · simp [h0, ConfigField.absent]
  · by_cases h1 : st.size < 2
    · simp [h0, h1, ConfigField.present]
    · by_cases h2 : read_size mem st.buffer > st.size
      · simp [h0, h1, h2]
      · simp [h0, h1, h2]

theorem deserialize_step_state_indep (f g : ConfigField) (mem : Mem) (st : DeserializeState) :
    (deserialize_step f mem st).2 = (deserialize_step g mem st).2 := by
  rw [deserialize_step_eq, deserialize_step_eq]
  by_cases h0 : st.size = 0
  · simp [h0]
  · by_cases h1 : st.size < 2
    · simp [h0, h1]
    · simp [h0, h1]

theorem deserialize_step_type (f : ConfigField) (mem : Mem) (st : DeserializeState) :
    (deserialize_step f mem st).1.type = f.type := by
  rw [deserialize_step_eq]
  by_cases h0 : st.size = 0
  · simp [h0, ConfigField.absent]
  · by_cases h1 : st.size < 2
    · simp [h0, h1, ConfigField.present]
    · simp [h0, h1]

theorem memcpy_from_idem (v : List Byte) (mem : Mem) (off k : Nat) :
    memcpy_from (memcpy_from v mem off k) mem off k = memcpy_from v mem off k := by
  unfold memcpy_from
  rw [List.drop_left' (peek_length _ _ _)]

theorem terminate_memcpy_idem (t : FieldType) (v : List Byte) (mem : Mem) (off k : Nat)
    (hk : k ≤ t.sizeof_value) :
    t.terminate (memcpy_from (t.terminate (memcpy_from v mem off k)) mem off k)
      = t.terminate (memcpy_from v mem off k) := by
  cases t with
  | PODField n => exact memcpy_from_idem v mem off k
  | ArrayField n m => exact memcpy_from_idem v mem off k
  | StringField N =>
    simp only [FieldType.terminate]
    simp only [FieldType.sizeof_value] at hk
    unfold memcpy_from
    have hP : (peek mem off k).length = k := peek_length _ _ _
    generalize peek mem off k = P at hP
    generalize v.drop k = X
    by_cases hN : k ≤ N
    · have e1 : (P ++ X).set N 0 = P ++ X.set (N - k) 0 := by
        rw [List.set_append_right _ _ (by omega), hP]
      rw [e1, List.drop_left' hP, List.set_append_right _ _ (by omega), hP, List.set_set]
    · have e1 : (P ++ X).set N 0 = P.set N 0 ++ X := by
        rw [List.set_append_left _ _ (by omega)]
      rw [e1, List.drop_left' (by rw [List.length_set, hP]), e1]

theorem deserialize_step_idem (f : ConfigField) (mem : Mem) (st : DeserializeState) :
    deserialize_step (deserialize_step f mem st).1 mem st = deserialize_step f mem st := by
  apply Prod.ext
  · rw [deserialize_step_eq (deserialize_step f mem st).1, deserialize_step_type]
    rw [deserialize_step_eq f]
    by_cases h0 : st.size = 0
    · simp [h0, ConfigField.absent]
    · by_cases h1 : st.size < 2
      · simp [h0, h1, ConfigField.present]
      · simp only [h0, h1, if_false]
        rw [terminate_memcpy_idem _ _ _ _ _ (copy_size_le _ _)]
  · exact deserialize_step_state_indep _ _ _ _

theorem deserialize_fields_idem (mem : Mem) (fs : List ConfigField) (st : DeserializeState) :
    deserialize_fields mem (deserialize_fields mem fs st).1 st = deserialize_fields mem fs st := by
  induction fs generalizing st with
  | nil => rfl
  | cons f fs ih =>
    simp only [deserialize_fields, deserialize_step_idem, ih]

theorem deserialize_loop_fields (c : Config) (mem : Mem) (buf budget : Nat) :
    c.deserialize_loop mem buf budget
      = deserialize_fields mem c._fields
          { buffer := buf, size := budget, assert_failed := false } := by
  unfold Config.deserialize_loop
  rw [deserialize_each_field_helper_eq]

theorem deserialize_idem (c : Config) (mem : Mem) (buf size : Nat) :
    (c.deserialize mem buf size).1.deserialize mem buf size = c.deserialize mem buf size := by
  unfold Config.deserialize
  by_cases hs : size < sizeof_size
  · simp only [hs, if_true]
  · simp only [hs, if_false]
    by_cases hp : size_t_sub (read_size mem buf) % SIZE_STORAGE_MOD = 0
    · simp only [hp, ne_eq, not_true_eq_false, if_false]
    · simp only [hp, ne_eq, not_false_eq_true, if_true, deserialize_loop_fields,
        deserialize_fields_idem]

theorem deserialize_fields_indep (mem : Mem) (fs gs : List ConfigField) (st : DeserializeState)
    (hlen : gs.length = fs.length) :
    (deserialize_fields mem fs st).1.map ConfigField.has_value
        = (deserialize_fields mem gs st).1.map ConfigField.has_value
      ∧ (deserialize_fields mem fs st).2 = (deserialize_fields mem gs st).2 := by
  induction fs generalizing gs st with
  | nil =>
    cases gs with
    | nil => exact ⟨rfl, rfl⟩
    | cons g gs => simp at hlen
  | cons f fs ih =>
    cases gs with
    | nil => simp at hlen
    | cons g gs =>
      simp only [List.length_cons, Nat.add_right_cancel_iff] at hlen
      have hst := deserialize_step_state_indep f g mem st
      have h := ih gs (deserialize_step f mem st).2 hlen
      simp only [deserialize_fields, List.map_cons, deserialize_step_has_value, ← hst]
      exact ⟨by rw [h.1], h.2⟩

theorem memcpy_from_getElem? (v w : List Byte) (mem : Mem) (off k j : Nat) :
    (memcpy_from v mem off k)[j]? = (memcpy_from w mem off k)[j]?
      ∨ ((memcpy_from v mem off k)[j]? = v[j]? ∧ (memcpy_from w mem off k)[j]? = w[j]?) := by
  unfold memcpy_from
  by_cases h : j < k
  · left
    rw [List.getElem?_append_left (by rw [peek_length]; exact h),
      List.getElem?_append_left (by rw [peek_length]; exact h)]
  · right
    have e : k + (j - k) = j := by omega
    rw [List.getElem?_append_right (by rw [peek_length]; omega),
      List.getElem?_append_right (by rw [peek_length]; omega), peek_length,
      List.getElem?_drop, List.getElem?_drop, e]
    exact ⟨rfl, rfl⟩

theorem terminate_memcpy_getElem? (t : FieldType) (v w : List Byte) (mem : Mem) (off k j : Nat)
    (hk : k ≤ t.sizeof_value) (hv : v.length = t.sizeof_value) (hw : w.length = t.sizeof_value) :
    (t.terminate (memcpy_from v mem off k))[j]? = (t.terminate (memcpy_from w mem off k))[j]?
      ∨ ((t.terminate (memcpy_from v mem off k))[j]? = v[j]?
        ∧ (t.terminate (memcpy_from w mem off k))[j]? = w[j]?) := by
  cases t with
  | PODField n => exact memcpy_from_getElem? v w mem off k j
  | ArrayField n m => exact memcpy_from_getElem? v w mem off k j
  | StringField N =>
    simp only [FieldType.terminate]
    simp only [FieldType.sizeof_value] at hk hv hw
    by_cases h : N = j
    · left
      subst h
      rw [List.getElem?_set_self (by rw [memcpy_from_length _ _ _ _ (by omega)]; omega),
        List.getElem?_set_self (by rw [memcpy_from_length _ _ _ _ (by omega)]; omega)]
    · rw [List.getElem?_set_ne h, List.getElem?_set_ne h]
      exact memcpy_from_getElem? v w mem off k j

theorem deserialize_step_value_diff (f g : ConfigField) (mem : Mem) (st : DeserializeState)
    (hty : g.type = f.type) (hf : f.WellFormed) (hg : g.WellFormed) (j : Nat) :
    (deserialize_step f mem st).1.value[j]? = (deserialize_step g mem st).1.value[j]?
      ∨ ((deserialize_step f mem st).1.value[j]? = f.value[j]?
        ∧ (deserialize_step g mem st).1.value[j]? = g.value[j]?) := by
  rw [deserialize_step_eq f, deserialize_step_eq g]
  by_cases h0 : st.size = 0
  · right
    simp [h0, ConfigField.absent]
  · by_cases h1 : st.size < 2
    · right
      simp [h0, h1, ConfigField.present]
    · simp only [h0, h1, if_false, hty]
      exact terminate_memcpy_getElem? f.type f.value g.value mem _ _ j (copy_size_le _ _) hf
        (by rw [← hty]; exact hg)

theorem deserialize_fields_value_diff (mem : Mem) (fs gs : List ConfigField)
    (st : DeserializeState) (hty : gs.map ConfigField.type = fs.map ConfigField.type)
    (hf : ∀ f ∈ fs, f.WellFormed) (hg : ∀ g ∈ gs, g.WellFormed)
    (i j : Nat) (f g r1 r2 : ConfigField) (h1 : fs[i]? = some f) (h2 : gs[i]? = some g)
    (h3 : (deserialize_fields mem fs st).1[i]? = some r1)
    (h4 : (deserialize_fields mem gs st).1[i]? = some r2) :
    r1.value[j]? = r2.value[j]? ∨ (r1.value[j]? = f.value[j]? ∧ r2.value[j]? = g.value[j]?) := by
  induction fs generalizing gs st i with
  | nil => simp at h1
  | cons x xs ih =>
    cases gs with
    | nil => simp at h2
    | cons y ys =>
      simp only [List.map_cons, List.cons.injEq] at hty
      cases i with
      | zero =>
        simp only [List.getElem?_cons_zero, Option.some.injEq, deserialize_fields] at h1 h2 h3 h4
        subst h1 h2 h3 h4
        exact deserialize_step_value_diff _ _ mem st hty.1 (hf _ (List.mem_cons_self _ _))
          (hg _ (List.mem_cons_self _ _)) j
      | succ i =>
        simp only [List.getElem?_cons_succ, deserialize_fields] at h1 h2 h3 h4
        rw [← deserialize_step_state_indep x y mem st] at h4
        exact ih ys (deserialize_step x mem st).2 hty.2
          (fun a ha => hf a (List.mem_cons_of_mem _ ha))
          (fun a ha => hg a (List.mem_cons_of_mem _ ha)) i h1 h2 h3 h4

theorem deserialize_fields_cases (c : Config) (mem : Mem) (buf size : Nat) :
    ((c.deserialize mem buf size).1.has_value = false
        ∧ (c.deserialize mem buf size).1._fields = c._fields)
      ∨ ((c.deserialize mem buf size).1.has_value = true
        ∧ (c.deserialize mem buf size).1._fields
          = (deserialize_fields mem c._fields
              { buffer := buf + 2, size := size_t_sub (read_size mem buf) % SIZE_STORAGE_MOD,
                assert_failed := false }).1) := by
  unfold Config.deserialize
  simp only [sizeof_size]
  by_cases hs : size < 2
  · left
    simp only [hs, if_true, and_self]
  · by_cases hp : size_t_sub (read_size mem buf) % SIZE_STORAGE_MOD = 0
    · left
      simp only [hs, if_false, hp, ne_eq, not_true_eq_false, and_self]
    · right
      simp only [hs, if_false, hp, ne_eq, not_false_eq_true, if_true, deserialize_loop_fields,
        and_self]

theorem deserialize_has_value_indep (c c2 : Config) (mem : Mem) (buf size : Nat) :
    (c.deserialize mem buf size).1.has_value = (c2.deserialize mem buf size).1.has_value
      ∧ (c.deserialize mem buf size).2 = (c2.deserialize mem buf size).2 := by
  unfold Config.deserialize
  by_cases hs : size < sizeof_size
  · simp only [hs, if_true, and_self]
  · by_cases hp : size_t_sub (read_size mem buf) % SIZE_STORAGE_MOD = 0
    · simp only [hs, if_false, hp, ne_eq, not_true_eq_false, and_self]
    · simp only [hs, if_false, hp, ne_eq, not_false_eq_true, if_true, and_self]

/-- C20 (decode is idempotent, flags depend on the buffer; amended): for every record state `c`,
buffer and `size`, deserializing twice in a row gives the record state and return value of
deserializing once.  For any two initial states `c`, `c2` of one schema, `deserialize` returns the
same value and gives the record the same `has_value`; when that flag is `true` (the field loop
ran) the `has_value` flags of all fields are identical too; and at every position of every field
the two decoded values either agree or both still hold the byte they had before the call (a
byte not covered by the on-disk payload). -/
theorem decode_idempotent (c c2 : Config) (mem : Mem) (buf size : Nat)
    (hschema : c2.schema = c.schema) (hwf : c.WellFormed) (hwf2 : c2.WellFormed) :
    (c.deserialize mem buf size).1.deserialize mem buf size = c.deserialize mem buf size
      ∧ (c.deserialize mem buf size).2 = (c2.deserialize mem buf size).2
      ∧ (c.deserialize mem buf size).1.has_value = (c2.deserialize mem buf size).1.has_value
      ∧ ((c.deserialize mem buf size).1.has_value = true →
          (c.deserialize mem buf size).1._fields.map ConfigField.has_value
            = (c2.deserialize mem buf size).1._fields.map ConfigField.has_value)
      ∧ (∀ (i j : Nat) (f g r1 r2 : ConfigField),
          c._fields[i]? = some f → c2._fields[i]? = some g →
          (c.deserialize mem buf size).1._fields[i]? = some r1 →
          (c2.deserialize mem buf size).1._fields[i]? = some r2 →
          r1.value[j]? = r2.value[j]?
            ∨ (r1.value[j]? = f.value[j]? ∧ r2.value[j]? = g.value[j]?)) := by
  have hind := deserialize_has_value_indep c c2 mem buf size
  have hlen : c2._fields.length = c._fields.length := by
    have := congrArg List.length hschema
    simpa [Config.schema] using this
  refine ⟨deserialize_idem c mem buf size, hind.2, hind.1, ?_, ?_⟩
  · intro htrue
    rcases deserialize_fields_cases c mem buf size with ⟨h1, -⟩ | ⟨-, h1⟩
    · rw [h1] at htrue
      exact absurd htrue (by decide)
    · rcases deserialize_fields_cases c2 mem buf size with ⟨h2, -⟩ | ⟨-, h2⟩
      · rw [← hind.1, htrue] at h2
        exact absurd h2 (by decide)
      · rw [h1, h2]
        exact (deserialize_fields_indep mem _ _ _ hlen).1
  · intro i j f g r1 r2 hf hg hr1 hr2
    rcases deserialize_fields_cases c mem buf size with ⟨h1, e1⟩ | ⟨h1, e1⟩
    · rcases deserialize_fields_cases c2 mem buf size with ⟨h2, e2⟩ | ⟨h2, e2⟩
      · rw [e1, hf] at hr1
        rw [e2, hg] at hr2
        simp only [Option.some.injEq] at hr1 hr2
        subst hr1 hr2
        exact Or.inr ⟨rfl, rfl⟩
      · rw [← hind.1, h1] at h2
        exact absurd h2 (by decide)
    · rcases deserialize_fields_cases c2 mem buf size with ⟨h2, e2⟩ | ⟨h2, e2⟩
      · rw [← hind.1, h1] at h2
        exact absurd h2 (by decide)
      · rw [e1] at hr1
        rw [e2] at hr2
        exact deserialize_fields_value_diff mem c._fields c2._fields _ hschema hwf hwf2 i j f g
          r1 r2 hf hg hr1 hr2

/-- An instance of `decode_idempotent`: two states of a record with a text field and a scalar,
decoded from a buffer that holds only the text block. -/
theorem decode_idempotent_witness :
    (Config.deserialize ⟨false, [⟨.StringField 3, false, [9, 9, 9, 9]⟩,
          ⟨.PODField 2, true, [9, 9]⟩]⟩ (mem_of [7, 0, 5, 0, 72, 105, 33]) 0 7).1.deserialize
        (mem_of [7, 0, 5, 0, 72, 105, 33]) 0 7
      = Config.deserialize ⟨false, [⟨.StringField 3, false, [9, 9, 9, 9]⟩,
          ⟨.PODField 2, true, [9, 9]⟩]⟩ (mem_of [7, 0, 5, 0, 72, 105, 33]) 0 7
    ∧ (Config.deserialize ⟨false, [⟨.StringField 3, false, [9, 9, 9, 9]⟩,
          ⟨.PODField 2, true, [9, 9]⟩]⟩
        (mem_of [7, 0, 5, 0, 72, 105, 33]) 0 7).1._fields.map ConfigField.has_value
      = (Config.deserialize ⟨true, [⟨.StringField 3, true, [1, 2, 3, 4]⟩,
          ⟨.PODField 2, false, [5, 6]⟩]⟩
        (mem_of [7, 0, 5, 0, 72, 105, 33]) 0 7).1._fields.map ConfigField.has_value :=
  have h := decode_idempotent
    ⟨false, [⟨.StringField 3, false, [9, 9, 9, 9]⟩, ⟨.PODField 2, true, [9, 9]⟩]⟩
    ⟨true, [⟨.StringField 3, true, [1, 2, 3, 4]⟩, ⟨.PODField 2, false, [5, 6]⟩]⟩
    (mem_of [7, 0, 5, 0, 72, 105, 33]) 0 7 (by decide) (by decide) (by decide)
  ⟨h.1, h.2.2.2.1 (by decide)⟩

/-- C20 as stated fails on the early-out path: with the buffer `02 00` (record payload length 0),
or with `size < 2`, `Config::deserialize` returns without touching the fields, so two initial
states whose field flags differ still differ in them afterwards. -/
theorem decode_flags_counterexample :
    (Config.deserialize ⟨false, [⟨.PODField 4, true, [1, 2, 3, 4]⟩]⟩
        (mem_of [2, 0]) 0 2).1._fields.map ConfigField.has_value = [true]
      ∧ (Config.deserialize ⟨false, [⟨.PODField 4, false, [1, 2, 3, 4]⟩]⟩
        (mem_of [2, 0]) 0 2).1._fields.map ConfigField.has_value = [false]
      ∧ (Config.deserialize ⟨false, [⟨.PODField 4, true, [1, 2, 3, 4]⟩]⟩
        (mem_of [8, 0, 6, 0, 1, 2, 3, 4]) 0 1).1._fields.map ConfigField.has_value = [true]
      ∧ (Config.deserialize ⟨false, [⟨.PODField 4, false, [1, 2, 3, 4]⟩]⟩
        (mem_of [8, 0, 6, 0, 1, 2, 3, 4]) 0 1).1._fields.map ConfigField.has_value = [false] := by
  decide

end EmbeddedConfigs
